import Mathlib

/-!
# Verification of the MAN-Mode orchestrator core

A shallow embedding, in Lean 4, of the risk-triage policy engine, the
approval-task activities, the omnitrace observability helpers and the DAG
step scheduler of the orchestrator, together with proofs of the behavioural
properties stated in the specification.

Modelling conventions:
* Python `float` risk scores and thresholds are modelled as rationals (`ℚ`);
  every score produced by the engine is a small decimal and the properties
  proved depend only on order comparisons.
* Python dicts are modelled as association lists (`List (String × _)`) in
  insertion order; JSON-like dynamic values are modelled by the inductive
  type `JVal`, with JSON numbers restricted to integers.
* Fallible operations return `Option`/`Except`; database tables are explicit
  lists of rows threaded through the activity functions.
-/

namespace Spec2Proof

/-! ## Character and string helpers -/

/-- Lexicographic strict order on character lists by Unicode code point,
matching Python string comparison (used by `json.dumps(sort_keys=True)`). -/
def charListLt : List Char → List Char → Bool
  | [], [] => false
  | [], _ :: _ => true
  | _ :: _, [] => false
  | c :: cs, d :: ds => c.toNat < d.toNat || (c = d && charListLt cs ds)

/-- Python `s1 < s2` on strings. -/
def strLt (a b : String) : Bool := charListLt a.data b.data

/-- ASCII lower-casing of a character (model of `str.lower()`; the
subjective-language vocabulary is ASCII so only ASCII casing matters). -/
def lowerChar (c : Char) : Char :=
  if 'A' ≤ c ∧ c ≤ 'Z' then Char.ofNat (c.toNat + 32) else c

/-- Lower-case every character of a list. -/
def lowerChars (l : List Char) : List Char := l.map lowerChar

/-- Lower-case a string (model of Python `str.lower()`). -/
def lowerStr (s : String) : String := ⟨lowerChars s.data⟩

/-- Does `pat` occur as a contiguous sub-sequence of `s`?  Model of the
Python `pat in s` substring test. -/
def containsSub (pat : List Char) : List Char → Bool
  | [] => pat.isEmpty
  | c :: rest => pat.isPrefixOf (c :: rest) || containsSub pat rest

/-- Substring test on strings (Python `pat in s`). -/
def strContains (s pat : String) : Bool := containsSub pat.data s.data

/-- `pre` is a prefix of `s` (Python `s.startswith(pre)`). -/
def strStarts (s pre : String) : Bool := pre.data.isPrefixOf s.data

/-- Replace every occurrence of `pat` by `rep`, scanning left to right
without overlap: model of Python `s.replace(pat, rep)` for non-empty `pat`
(the orchestrator never calls `replace` with an empty pattern). -/
def replaceAllCh (pat rep : List Char) : List Char → List Char
  | [] => []
  | c :: rest =>
    if pat = [] then c :: rest
    else if pat.isPrefixOf (c :: rest) then
      rep ++ replaceAllCh pat rep ((c :: rest).drop pat.length)
    else
      c :: replaceAllCh pat rep rest
termination_by s => s.length
decreasing_by
  · simp only [List.length_drop, List.length_cons]
    rename_i hp _
    have hlen : 1 ≤ pat.length := by
      cases pat with
      | nil => simp_all
      | cons a l => simp
    omega
  · simp

/-- Python `s.replace(pat, rep)` on strings. -/
def strReplace (s pat rep : String) : String := ⟨replaceAllCh pat.data rep.data s.data⟩

/-- Python-style two-decimal formatting of a non-negative rational
(model of `f"{v:.2f}"` for the engine's risk-dimension scores, which are
exact multiples of `1/10` so no rounding ambiguity arises). -/
def fmt2 (q : ℚ) : String :=
  let n : Int := ⌊q * 100 + 1/2⌋
  let n' : Nat := n.toNat
  let whole := n' / 100
  let frac := n' % 100
  toString whole ++ "." ++ (if frac < 10 then "0" else "") ++ toString frac

/-! ## JSON-like dynamic values

`JVal` models the JSON-serialisable Python values the orchestrator passes
around (`tool_params` entries, activity results, audit payloads).  JSON
numbers are restricted to integers; Python-level distinctions that matter
to the code (`bool` vs `int`, `None`) are kept. -/

inductive JVal where
  | jnull
  | jbool (b : Bool)
  | jint (n : Int)
  | jstr (s : String)
  | jarr (xs : List JVal)
  | jobj (kvs : List (String × JVal))

mutual

/-- Size measure used for recursion over nested `JVal` structure. -/
def JVal.jsize : JVal → Nat
  | .jnull => 1
  | .jbool _ => 1
  | .jint _ => 1
  | .jstr _ => 1
  | .jarr xs => 1 + JVal.jsizeList xs
  | .jobj kvs => 1 + JVal.jsizeObj kvs

/-- Total size of a list of values. -/
def JVal.jsizeList : List JVal → Nat
  | [] => 0
  | x :: xs => JVal.jsize x + JVal.jsizeList xs

/-- Total size of an association list of values. -/
def JVal.jsizeObj : List (String × JVal) → Nat
  | [] => 0
  | kv :: kvs => JVal.jsize kv.2 + JVal.jsizeObj kvs

end

theorem JVal.jsize_pos (v : JVal) : 0 < v.jsize := by
  cases v <;> simp [JVal.jsize]

theorem JVal.jsize_lt_of_mem {x : JVal} {xs : List JVal} (h : x ∈ xs) :
    x.jsize < (JVal.jarr xs).jsize := by
  induction xs with
  | nil => cases h
  | cons y ys ih =>
    simp only [JVal.jsize, JVal.jsizeList] at *
    rcases List.mem_cons.mp h with h | h
    · subst h; omega
    · have := ih h; omega

theorem JVal.jsize_lt_of_mem_obj {kv : String × JVal} {kvs : List (String × JVal)}
    (h : kv ∈ kvs) : kv.2.jsize < (JVal.jobj kvs).jsize := by
  induction kvs with
  | nil => cases h
  | cons y ys ih =>
    simp only [JVal.jsize, JVal.jsizeObj] at *
    rcases List.mem_cons.mp h with h | h
    · subst h; omega
    · have := ih h; omega

/-- Structural induction principle for `JVal` that recurses through the
nested lists. -/
theorem JVal.inductionOn {P : JVal → Prop}
    (hnull : P .jnull)
    (hbool : ∀ b, P (.jbool b))
    (hint : ∀ n, P (.jint n))
    (hstr : ∀ s, P (.jstr s))
    (harr : ∀ xs, (∀ x ∈ xs, P x) → P (.jarr xs))
    (hobj : ∀ kvs, (∀ kv ∈ kvs, P kv.2) → P (.jobj kvs)) :
    ∀ v, P v := by
  have main : ∀ n v, JVal.jsize v ≤ n → P v := by
    intro n
    induction n with
    | zero => intro v hv; have := JVal.jsize_pos v; omega
    | succ n ih =>
      intro v hv
      cases v with
      | jnull => exact hnull
      | jbool b => exact hbool b
      | jint m => exact hint m
      | jstr s => exact hstr s
      | jarr xs =>
        refine harr xs fun x hx => ih x ?_
        have := JVal.jsize_lt_of_mem hx
        omega
      | jobj kvs =>
        refine hobj kvs fun kv hkv => ih kv.2 ?_
        have := JVal.jsize_lt_of_mem_obj hkv
        omega
  exact fun v => main v.jsize v le_rfl

mutual

/-- Decidable equality for `JVal`. -/
def JVal.beq : JVal → JVal → Bool
  | .jnull, .jnull => true
  | .jbool a, .jbool b => a = b
  | .jint a, .jint b => a = b
  | .jstr a, .jstr b => a = b
  | .jarr xs, .jarr ys => JVal.beqList xs ys
  | .jobj xs, .jobj ys => JVal.beqObj xs ys
  | _, _ => false

/-- Pointwise equality test on value lists. -/
def JVal.beqList : List JVal → List JVal → Bool
  | [], [] => true
  | x :: xs, y :: ys => JVal.beq x y && JVal.beqList xs ys
  | _, _ => false

/-- Pointwise equality test on association lists. -/
def JVal.beqObj : List (String × JVal) → List (String × JVal) → Bool
  | [], [] => true
  | x :: xs, y :: ys => (x.1 = y.1 : Bool) && JVal.beq x.2 y.2 && JVal.beqObj xs ys
  | _, _ => false

end

theorem JVal.beq_iff : ∀ a b : JVal, JVal.beq a b = true ↔ a = b := by
  have main : ∀ n, (∀ a, JVal.jsize a ≤ n → ∀ b, JVal.beq a b = true ↔ a = b) := by
    intro n
    induction n with
    | zero => intro a ha; have := JVal.jsize_pos a; omega
    | succ n ih =>
      intro a ha b
      cases a with
      | jnull => cases b <;> simp [JVal.beq]
      | jbool x => cases b <;> simp [JVal.beq]
      | jint x => cases b <;> simp [JVal.beq]
      | jstr x => cases b <;> simp [JVal.beq]
      | jarr xs =>
        cases b with
        | jarr ys =>
          simp only [JVal.beq, jarr.injEq]
          induction xs generalizing ys with
          | nil => cases ys <;> simp [JVal.beqList]
          | cons x xs ihx =>
            cases ys with
            | nil => simp [JVal.beqList]
            | cons y ys =>
              have hx : JVal.jsize x ≤ n := by
                have := JVal.jsize_lt_of_mem (List.mem_cons_self x xs)
                simp only [JVal.jsize] at ha this
                omega
              have hxs : JVal.jsize (JVal.jarr xs) ≤ JVal.jsize (JVal.jarr (x :: xs)) := by
                have := JVal.jsize_pos x
                simp [JVal.jsize, JVal.jsizeList]
              have := ihx (le_trans hxs ha)
              simp only [JVal.beqList, Bool.and_eq_true, this ys, ih x hx y,
                List.cons.injEq]
        | jnull | jbool _ | jint _ | jstr _ | jobj _ => simp [JVal.beq]
      | jobj xs =>
        cases b with
        | jobj ys =>
          simp only [JVal.beq, jobj.injEq]
          induction xs generalizing ys with
          | nil => cases ys <;> simp [JVal.beqObj]
          | cons x xs ihx =>
            cases ys with
            | nil => simp [JVal.beqObj]
            | cons y ys =>
              have hx : JVal.jsize x.2 ≤ n := by
                have := JVal.jsize_lt_of_mem_obj (List.mem_cons_self x xs)
                simp only [JVal.jsize] at ha this
                omega
              have hxs : JVal.jsize (JVal.jobj xs) ≤ JVal.jsize (JVal.jobj (x :: xs)) := by
                have := JVal.jsize_pos x.2
                simp [JVal.jsize, JVal.jsizeObj]
              have := ihx (le_trans hxs ha)
              simp only [JVal.beqObj, Bool.and_eq_true, this ys, ih x.2 hx y.2,
                List.cons.injEq, decide_eq_true_eq]
              constructor
              · rintro ⟨⟨h1, h2⟩, h3⟩
                exact ⟨Prod.ext h1 h2, h3⟩
              · rintro ⟨h1, h2⟩
                cases x; cases y
                simp only [Prod.mk.injEq] at h1
                exact ⟨⟨h1.1, h1.2⟩, h2⟩
        | jnull | jbool _ | jint _ | jstr _ | jarr _ => simp [JVal.beq]
  exact fun a => main (JVal.jsize a) a le_rfl

instance : DecidableEq JVal := fun a b =>
  decidable_of_iff (JVal.beq a b = true) (JVal.beq_iff a b)

/-! ## Sorting object entries by key

`json.dumps(..., sort_keys=True)` emits the entries of an object ordered by
Python string comparison of the keys.  Since dict keys are unique, any
correct sort produces the same ordering; we model it with insertion sort. -/

/-- Insert an entry into a key-sorted association list, keeping it sorted. -/
def insertEntry (kv : String × JVal) : List (String × JVal) → List (String × JVal)
  | [] => [kv]
  | y :: l => if strLt kv.1 y.1 then kv :: y :: l else y :: insertEntry kv l

/-- Sort object entries by key (ascending Python string order). -/
def sortByKey (l : List (String × JVal)) : List (String × JVal) :=
  l.foldr insertEntry []

theorem charListLt_irrefl (l : List Char) : charListLt l l = false := by
  induction l with
  | nil => rfl
  | cons c cs ih => simp [charListLt, ih]

theorem charListLt_trichotomy (a b : List Char) :
    charListLt a b = true ∨ a = b ∨ charListLt b a = true := by
  induction a generalizing b with
  | nil => cases b <;> simp [charListLt]
  | cons c cs ih =>
    cases b with
    | nil => simp [charListLt]
    | cons d ds =>
      by_cases hcd : c = d
      · subst hcd
        rcases ih ds with h | h | h
        · exact Or.inl (by simp [charListLt, h])
        · exact Or.inr (Or.inl (by rw [h]))
        · exact Or.inr (Or.inr (by simp [charListLt, h]))
      · have hne : c.toNat ≠ d.toNat := by
          intro h
          exact hcd (Char.eq_of_val_eq (UInt32.ext h))
        rcases Nat.lt_or_ge c.toNat d.toNat with h | h
        · exact Or.inl (by simp [charListLt, h])
        · have : d.toNat < c.toNat := lt_of_le_of_ne h (Ne.symm hne)
          exact Or.inr (Or.inr (by simp [charListLt, this]))

theorem strLt_irrefl (s : String) : strLt s s = false := charListLt_irrefl s.data

theorem strLt_trichotomy (a b : String) :
    strLt a b = true ∨ a = b ∨ strLt b a = true := by
  rcases charListLt_trichotomy a.data b.data with h | h | h
  · exact Or.inl h
  · refine Or.inr (Or.inl ?_)
    cases a; cases b
    exact congrArg String.mk h
  · exact Or.inr (Or.inr h)

/-- Entries of the insertion result. -/
theorem insertEntry_perm (kv : String × JVal) (l : List (String × JVal)) :
    (insertEntry kv l).Perm (kv :: l) := by
  induction l with
  | nil => simp [insertEntry]
  | cons y l ih =>
    by_cases h : strLt kv.1 y.1
    · simp [insertEntry, h]
    · simp only [insertEntry, h, if_false]
      exact (List.Perm.cons y ih).trans (List.Perm.swap kv y l)

theorem sortByKey_perm (l : List (String × JVal)) : (sortByKey l).Perm l := by
  induction l with
  | nil => simp [sortByKey]
  | cons kv l ih =>
    have : sortByKey (kv :: l) = insertEntry kv (sortByKey l) := rfl
    rw [this]
    exact (insertEntry_perm kv _).trans (List.Perm.cons kv ih)

/-- Sortedness predicate: no later key is strictly below an earlier key. -/
def KeySorted (l : List (String × JVal)) : Prop :=
  l.Pairwise fun a b => strLt b.1 a.1 = false

theorem charListLt_trans {a b c : List Char}
    (hab : charListLt a b = true) (hbc : charListLt b c = true) :
    charListLt a c = true := by
  induction a generalizing b c with
  | nil =>
    cases b with
    | nil => simp [charListLt] at hab
    | cons d ds =>
      cases c with
      | nil => simp [charListLt] at hbc
      | cons e es => simp [charListLt]
  | cons x xs ih =>
    cases b with
    | nil => simp [charListLt] at hab
    | cons d ds =>
      cases c with
      | nil => simp [charListLt] at hbc
      | cons e es =>
        simp only [charListLt, Bool.or_eq_true, Bool.and_eq_true,
          decide_eq_true_eq] at hab hbc ⊢
        rcases hab with h1 | ⟨h1, h1'⟩
        · rcases hbc with h2 | ⟨h2, h2'⟩
          · exact Or.inl (Nat.lt_trans h1 h2)
          · subst h2; exact Or.inl h1
        · subst h1
          rcases hbc with h2 | ⟨h2, h2'⟩
          · exact Or.inl h2
          · subst h2; exact Or.inr ⟨rfl, ih h1' h2'⟩

theorem charListLt_asymm {a b : List Char} (hab : charListLt a b = true) :
    charListLt b a = false := by
  by_contra h
  have hba : charListLt b a = true := by
    cases hb : charListLt b a
    · exact absurd hb h
    · rfl
  have := charListLt_trans hab hba
  rw [charListLt_irrefl] at this
  exact Bool.false_ne_true this

theorem strLt_trans {a b c : String}
    (hab : strLt a b = true) (hbc : strLt b c = true) : strLt a c = true :=
  charListLt_trans hab hbc

theorem strLt_asymm {a b : String} (hab : strLt a b = true) :
    strLt b a = false := charListLt_asymm hab

theorem insertEntry_keySorted {kv : String × JVal} {l : List (String × JVal)}
    (h : KeySorted l) : KeySorted (insertEntry kv l) := by
  induction l with
  | nil => simp [insertEntry, KeySorted]
  | cons y l ih =>
    rcases List.pairwise_cons.mp h with ⟨hy, hl⟩
    by_cases hlt : strLt kv.1 y.1 = true
    · rw [show insertEntry kv (y :: l) = kv :: y :: l by simp [insertEntry, hlt]]
      refine List.pairwise_cons.mpr ⟨?_, h⟩
      intro z hz
      rcases List.mem_cons.mp hz with rfl | hz
      · exact strLt_asymm hlt
      · cases hzk : strLt z.1 kv.1
        · rfl
        · exfalso
          have hzy : strLt z.1 y.1 = true := strLt_trans hzk hlt
          have := hy z hz
          rw [this] at hzy
          exact Bool.false_ne_true hzy
    · rw [show insertEntry kv (y :: l) = y :: insertEntry kv l by
        simp [insertEntry, hlt]]
      refine List.pairwise_cons.mpr ⟨?_, ih hl⟩
      intro z hz
      have := (insertEntry_perm kv l).mem_iff.mp hz
      rcases List.mem_cons.mp this with rfl | hz'
      · simpa using hlt
      · exact hy z hz'

theorem sortByKey_keySorted (l : List (String × JVal)) : KeySorted (sortByKey l) := by
  induction l with
  | nil => simp [sortByKey, KeySorted]
  | cons kv l ih => exact insertEntry_keySorted ih

/-- Keys with distinct names: two key-sorted association lists that are
permutations of one another are equal. -/
theorem keySorted_perm_eq :
    ∀ {l₁ l₂ : List (String × JVal)}, KeySorted l₁ → KeySorted l₂ →
      l₁.Perm l₂ → (l₁.map Prod.fst).Nodup → l₁ = l₂ := by
  intro l₁
  induction l₁ with
  | nil => intro l₂ _ _ hp _; simpa using hp.symm
  | cons x xs ih =>
    intro l₂ h₁ h₂ hp hnd
    cases l₂ with
    | nil => simpa using hp
    | cons y ys =>
      rcases List.pairwise_cons.mp h₁ with ⟨hx, hxs⟩
      rcases List.pairwise_cons.mp h₂ with ⟨hy, hys⟩
      have hxy : x = y := by
        have hxmem : x ∈ y :: ys := hp.mem_iff.mp (List.mem_cons_self x xs)
        have hymem : y ∈ x :: xs := hp.mem_iff.mpr (List.mem_cons_self y ys)
        rcases List.mem_cons.mp hxmem with h | hxys
        · -- x = y directly
          exact h
        rcases List.mem_cons.mp hymem with h | hyxs
        · exact h.symm
        -- x occurs strictly inside ys and y strictly inside xs
        have h1 : strLt x.1 y.1 = false := hy x hxys
        have h2 : strLt y.1 x.1 = false := hx y hyxs
        rcases strLt_trichotomy x.1 y.1 with ht | ht | ht
        · rw [h1] at ht; exact absurd ht Bool.false_ne_true
        · -- keys equal: but x ∈ xs-part means key x.1 occurs twice in l₁
          exfalso
          rcases List.nodup_cons.mp hnd with ⟨hxnot, _⟩
          have : y.1 ∈ xs.map Prod.fst := List.mem_map_of_mem Prod.fst hyxs
          rw [← ht] at this
          exact hxnot this
        · rw [h2] at ht; exact absurd ht Bool.false_ne_true
      subst hxy
      have hp' : xs.Perm ys := (List.perm_cons x).mp hp
      have : xs = ys := ih hxs hys hp' (List.nodup_cons.mp hnd).2
      rw [this]

/-- Any permutation with distinct keys sorts to the same entry list. -/
theorem sortByKey_perm_invariant {l₁ l₂ : List (String × JVal)}
    (hp : l₁.Perm l₂) (hnd : (l₁.map Prod.fst).Nodup) :
    sortByKey l₁ = sortByKey l₂ := by
  refine keySorted_perm_eq (sortByKey_keySorted l₁) (sortByKey_keySorted l₂) ?_ ?_
  · exact (sortByKey_perm l₁).trans (hp.trans (sortByKey_perm l₂).symm)
  · exact ((sortByKey_perm l₁).map Prod.fst).nodup_iff.mpr hnd

/-! ## JSON serialisation (`json.dumps`)

Model of CPython's `json.dumps(value, sort_keys=True, separators=(isep, ksep))`
with the default `ensure_ascii=True` string escaping.  `canonical_json` uses
separators `(",", ":")`; `create_man_task` uses the default `(", ", ": ")`. -/

/-- Lower-case hexadecimal digit. -/
def hexDig (n : Nat) : Char :=
  if n < 10 then Char.ofNat (48 + n) else Char.ofNat (87 + n)

/-- Four-digit lower-case hex rendering of `n < 0x10000` (Python `%04x`). -/
def hex4 (n : Nat) : List Char :=
  [hexDig (n / 4096 % 16), hexDig (n / 256 % 16), hexDig (n / 16 % 16), hexDig (n % 16)]

/-- JSON escape of one character, as produced by the C `ascii` encoder:
literal for printable ASCII, two-character escapes for the JSON short
escapes, `\uXXXX` otherwise (with a surrogate pair above `0xFFFF`). -/
def escapeChar (c : Char) : List Char :=
  if c = '"' then ['\\', '"']
  else if c = '\\' then ['\\', '\\']
  else if c = '\x08' then ['\\', 'b']
  else if c = '\x0c' then ['\\', 'f']
  else if c = '\n' then ['\\', 'n']
  else if c = '\r' then ['\\', 'r']
  else if c = '\t' then ['\\', 't']
  else if 0x20 ≤ c.toNat ∧ c.toNat ≤ 0x7e then [c]
  else if c.toNat < 0x10000 then '\\' :: 'u' :: hex4 c.toNat
  else
    ('\\' :: 'u' :: hex4 (0xd800 + (c.toNat - 0x10000) / 0x400)) ++
      ('\\' :: 'u' :: hex4 (0xdc00 + (c.toNat - 0x10000) % 0x400))

/-- Escape every character of a string body. -/
def escapeChars : List Char → List Char
  | [] => []
  | c :: cs => escapeChar c ++ escapeChars cs

/-- Join pre-rendered items with a separator (no trailing separator). -/
def sepJoin (sep : List Char) : List (List Char) → List Char
  | [] => []
  | [x] => x
  | x :: y :: xs => x ++ sep ++ sepJoin sep (y :: xs)

/-- Decimal digits of `n`, most significant first, accumulated into `acc`. -/
def natToCharsAux : Nat → Nat → List Char → List Char
  | 0, _, acc => acc
  | fuel + 1, n, acc =>
    if n < 10 then Char.ofNat (48 + n) :: acc
    else natToCharsAux fuel (n / 10) (Char.ofNat (48 + n % 10) :: acc)

/-- Decimal rendering of a natural number (`str(n)` for `n ≥ 0`). -/
def natToChars (n : Nat) : List Char := natToCharsAux (n + 1) n []

/-- Decimal rendering of an integer (`str(n)` in Python, as emitted by
`json.dumps` for ints). -/
def intToChars : Int → List Char
  | .ofNat n => natToChars n
  | .negSucc m => '-' :: natToChars (m + 1)

mutual

/-- Serialise a value with the given separators and *no* key sorting
(objects are emitted in entry order). -/
def dumpsVal (isep ksep : List Char) : JVal → List Char
  | .jnull => "null".data
  | .jbool true => "true".data
  | .jbool false => "false".data
  | .jint n => intToChars n
  | .jstr s => '"' :: (escapeChars s.data ++ ['"'])
  | .jarr xs => '[' :: (sepJoin isep (dumpsList isep ksep xs) ++ [']'])
  | .jobj kvs => '{' :: (sepJoin isep (dumpsEntries isep ksep kvs) ++ ['}'])

/-- Serialised array elements. -/
def dumpsList (isep ksep : List Char) : List JVal → List (List Char)
  | [] => []
  | x :: xs => dumpsVal isep ksep x :: dumpsList isep ksep xs

/-- Serialised object entries (`"key"<ksep><value>`). -/
def dumpsEntries (isep ksep : List Char) : List (String × JVal) → List (List Char)
  | [] => []
  | kv :: kvs =>
    (('"' :: (escapeChars kv.1.data ++ ['"'])) ++ ksep ++ dumpsVal isep ksep kv.2)
      :: dumpsEntries isep ksep kvs

end

mutual

/-- Recursively order every object's entries by key.  `json.dumps` with
`sort_keys=True` emits each object in ascending key order; serialising
`canonSort v` without sorting produces exactly that output. -/
def canonSort : JVal → JVal
  | .jnull => .jnull
  | .jbool b => .jbool b
  | .jint n => .jint n
  | .jstr s => .jstr s
  | .jarr xs => .jarr (canonSortList xs)
  | .jobj kvs => .jobj (sortByKey (canonSortObj kvs))

/-- `canonSort` on array elements. -/
def canonSortList : List JVal → List JVal
  | [] => []
  | x :: xs => canonSort x :: canonSortList xs

/-- `canonSort` on object entry values (before the entries are sorted). -/
def canonSortObj : List (String × JVal) → List (String × JVal)
  | [] => []
  | kv :: kvs => (kv.1, canonSort kv.2) :: canonSortObj kvs

end

theorem dumpsList_eq (isep ksep : List Char) (xs : List JVal) :
    dumpsList isep ksep xs = xs.map (dumpsVal isep ksep) := by
  induction xs with
  | nil => rfl
  | cons x xs ih => simp [dumpsList, ih]

theorem dumpsEntries_eq (isep ksep : List Char) (kvs : List (String × JVal)) :
    dumpsEntries isep ksep kvs = kvs.map fun kv =>
      ('"' :: (escapeChars kv.1.data ++ ['"'])) ++ ksep ++ dumpsVal isep ksep kv.2 := by
  induction kvs with
  | nil => rfl
  | cons kv kvs ih => simp [dumpsEntries, ih]

theorem canonSortList_eq (xs : List JVal) :
    canonSortList xs = xs.map canonSort := by
  induction xs with
  | nil => rfl
  | cons x xs ih => simp [canonSortList, ih]

theorem canonSortObj_eq (kvs : List (String × JVal)) :
    canonSortObj kvs = kvs.map fun kv => (kv.1, canonSort kv.2) := by
  induction kvs with
  | nil => rfl
  | cons kv kvs ih => simp [canonSortObj, ih]

/-- `canonical_json(data)`: deterministic JSON with sorted keys and no
extraneous whitespace — `json.dumps(data, sort_keys=True, separators=(",", ":"))`. -/
def canonical_json (v : JVal) : String :=
  ⟨dumpsVal [','] [':'] (canonSort v)⟩

/-- `json.dumps(data, sort_keys=True)` with the *default* separators
`(", ", ": ")`, as used by `create_man_task` for the idempotency key. -/
def pyDumpsSorted (v : JVal) : String :=
  ⟨dumpsVal [',', ' '] [':', ' '] (canonSort v)⟩

/-! ## SHA-256 and `compute_hash`

`compute_hash(data, length=16)` is the lower-case hex prefix of the SHA-256
digest of `canonical_json(data)` encoded as UTF-8.  The orchestrator uses it
for the `"<redacted:HASH>"` markers and for event keys; no claim depends on
digest internals, but the function is embedded in full so that redaction
results are concrete values. -/

/-- UTF-8 bytes of one character. -/
def utf8Char (c : Char) : List Nat :=
  let n := c.toNat
  if n < 128 then [n]
  else if n < 2048 then [192 + n / 64, 128 + n % 64]
  else if n < 65536 then [224 + n / 4096, 128 + n / 64 % 64, 128 + n % 64]
  else [240 + n / 262144, 128 + n / 4096 % 64, 128 + n / 64 % 64, 128 + n % 64]

/-- UTF-8 bytes of a string. -/
def utf8Bytes : List Char → List Nat
  | [] => []
  | c :: cs => utf8Char c ++ utf8Bytes cs

/-- 32-bit right rotation. -/
def rotr32 (n x : Nat) : Nat :=
  ((x >>> n) ||| (x <<< (32 - n))) % 4294967296

/-- 32-bit bitwise complement. -/
def not32 (x : Nat) : Nat := x ^^^ 4294967295

/-- SHA-256 round constants (decimal). -/
def shaK : List Nat :=
  [1116352408, 1899447441, 3049323471, 3921009573, 961987163,
   1508970993, 2453635748, 2870763221, 3624381080, 310598401,
   607225278, 1426881987, 1925078388, 2162078206, 2614888103,
   3248222580, 3835390401, 4022224774, 264347078, 604807628,
   770255983, 1249150122, 1555081692, 1996064986, 2554220882,
   2821834349, 2952996808, 3210313671, 3336571891, 3584528711,
   113926993, 338241895, 666307205, 773529912, 1294757372,
   1396182291, 1695183700, 1986661051, 2177026350, 2456956037,
   2730485921, 2820302411, 3259730800, 3345764771, 3516065817,
   3600352804, 4094571909, 275423344, 430227734, 506948616,
   659060556, 883997877, 958139571, 1322822218, 1537002063,
   1747873779, 1955562222, 2024104815, 2227730452, 2361852424,
   2428436474, 2756734187, 3204031479, 3329325298]

/-- SHA-256 initial hash state (decimal). -/
def shaH0 : List Nat :=
  [1779033703, 3144134277, 1013904242, 2773480762, 1359893119,
   2600822924, 528734635, 1541459225]

/-- Split a byte list into big-endian 32-bit words (length divisible by 4). -/
def bytesToWords : List Nat → List Nat
  | b0 :: b1 :: b2 :: b3 :: rest =>
    (b0 * 16777216 + b1 * 65536 + b2 * 256 + b3) :: bytesToWords rest
  | _ => []

/-- Extend a 16-word message block to the 64-word schedule. -/
def shaExtend (fuel : Nat) (w : List Nat) : List Nat :=
  match fuel with
  | 0 => w
  | fuel + 1 =>
    let i := w.length
    let s0v := w.getD (i - 15) 0
    let s1v := w.getD (i - 2) 0
    let s0 := rotr32 7 s0v ^^^ rotr32 18 s0v ^^^ (s0v >>> 3)
    let s1 := rotr32 17 s1v ^^^ rotr32 19 s1v ^^^ (s1v >>> 10)
    let nw := (w.getD (i - 16) 0 + s0 + w.getD (i - 7) 0 + s1) % 4294967296
    shaExtend fuel (w ++ [nw])

/-- One SHA-256 compression round. -/
def shaRound (st : List Nat) (kw : Nat × Nat) : List Nat :=
  match st with
  | [a, b, c, d, e, f, g, h] =>
    let s1 := rotr32 6 e ^^^ rotr32 11 e ^^^ rotr32 25 e
    let ch := (e &&& f) ^^^ (not32 e &&& g)
    let t1 := (h + s1 + ch + kw.1 + kw.2) % 4294967296
    let s0 := rotr32 2 a ^^^ rotr32 13 a ^^^ rotr32 22 a
    let mj := (a &&& b) ^^^ (a &&& c) ^^^ (b &&& c)
    let t2 := (s0 + mj) % 4294967296
    [(t1 + t2) % 4294967296, a, b, c, (d + t1) % 4294967296, e, f, g]
  | _ => st

/-- Process one 64-byte block. -/
def shaBlock (hstate : List Nat) (block : List Nat) : List Nat :=
  let w := shaExtend 48 (bytesToWords block)
  let st := (shaK.zip w).foldl shaRound hstate
  (hstate.zip st).map fun p => (p.1 + p.2) % 4294967296

/-- Split into 64-byte chunks. -/
def chunks64 (l : List Nat) : List (List Nat) :=
  if l.isEmpty then [] else l.take 64 :: chunks64 (l.drop 64)
termination_by l.length
decreasing_by
  simp only [List.length_drop]
  cases l with
  | nil => simp_all
  | cons c cs => simp only [List.length_cons]; omega

/-- Big-endian byte rendering (`k` bytes). -/
def toBytesBE (k n : Nat) : List Nat :=
  (List.range k).map fun i => n / 2 ^ (8 * (k - 1 - i)) % 256

/-- SHA-256 padding of a byte message. -/
def shaPad (msg : List Nat) : List Nat :=
  let padZeros := (64 + 55 - msg.length % 64) % 64
  msg ++ [128] ++ List.replicate padZeros 0 ++ toBytesBE 8 (msg.length * 8)

/-- SHA-256 digest bytes of a byte message. -/
def sha256 (msg : List Nat) : List Nat :=
  let final := (chunks64 (shaPad msg)).foldl shaBlock shaH0
  final.foldr (fun wrd acc => toBytesBE 4 wrd ++ acc) []

/-- Lower-case hex string of a byte list. -/
def bytesToHex : List Nat → List Char
  | [] => []
  | b :: bs => hexDig (b / 16) :: hexDig (b % 16) :: bytesToHex bs

/-- `compute_hash(data, length)`: hex prefix of the SHA-256 of the canonical
JSON of `data`. -/
def compute_hash (v : JVal) (length : Nat := 16) : String :=
  ⟨(bytesToHex (sha256 (utf8Bytes (canonical_json v).data))).take length⟩

/-! ## Python `str()` / `repr()` of JSON-like values

The triage engine stringifies `tool_params` values (`str(v)`) before the
substring checks for hard triggers and subjective language.  `repr` of
strings models CPython's quote choice and ASCII escape rules (non-ASCII
printable characters are kept literal, which is CPython's behaviour for
these values). -/

/-- Body of a Python string repr with chosen quote character `q`. -/
def pyStrReprBody (q : Char) : List Char → List Char
  | [] => []
  | c :: cs =>
    (if c = '\\' then ['\\', '\\']
     else if c = q then ['\\', q]
     else if c = '\n' then ['\\', 'n']
     else if c = '\r' then ['\\', 'r']
     else if c = '\t' then ['\\', 't']
     else if c.toNat < 32 ∨ c.toNat = 127 then
       ['\\', 'x', hexDig (c.toNat / 16), hexDig (c.toNat % 16)]
     else [c]) ++ pyStrReprBody q cs

/-- Python `repr` of a string: single quotes, or double quotes when the
string contains `'` but no `"`. -/
def pyStrRepr (s : String) : String :=
  let q : Char := if s.data.contains '\'' ∧ ¬ s.data.contains '"' then '"' else '\''
  ⟨q :: (pyStrReprBody q s.data ++ [q])⟩

mutual

/-- Python `repr(v)` of a JSON-like value (used inside containers). -/
def pyRepr : JVal → String
  | .jnull => "None"
  | .jbool true => "True"
  | .jbool false => "False"
  | .jint n => toString n
  | .jstr s => pyStrRepr s
  | .jarr xs => "[" ++ String.intercalate ", " (pyReprList xs) ++ "]"
  | .jobj kvs => "\x7b" ++ String.intercalate ", " (pyReprObj kvs) ++ "\x7d"

/-- `repr` of the elements of a list. -/
def pyReprList : List JVal → List String
  | [] => []
  | x :: xs => pyRepr x :: pyReprList xs

/-- `repr(key): repr(value)` renderings of dict entries. -/
def pyReprObj : List (String × JVal) → List String
  | [] => []
  | kv :: kvs => (pyStrRepr kv.1 ++ ": " ++ pyRepr kv.2) :: pyReprObj kvs

end

/-- Python `str(v)` of a JSON-like value: the string itself for strings,
`repr` otherwise. -/
def pyStr (v : JVal) : String :=
  match v with
  | .jstr s => s
  | _ => pyRepr v

/-! ## MAN Mode data model and policy engine

Shallow embedding of `orchestrator/models/man_mode.py`. -/

/-- Risk assessment lanes. -/
inductive ManLane where
  | GREEN
  | YELLOW
  | RED
  | BLOCKED
deriving DecidableEq

/-- The value of a `ManLane` member (the `str`-mixin enum formats as its
value inside f-strings, as the repo's tests rely on). -/
def ManLane.str : ManLane → String
  | .GREEN => "GREEN"
  | .YELLOW => "YELLOW"
  | .RED => "RED"
  | .BLOCKED => "BLOCKED"

/-- Total lane order used by the spec: GREEN < YELLOW < RED < BLOCKED. -/
def ManLane.rank : ManLane → Nat
  | .GREEN => 0
  | .YELLOW => 1
  | .RED => 2
  | .BLOCKED => 3

/-- Recognised intent flags (`flags` is a free-form dict in the source;
only these three keys are read, by truthiness). -/
structure IntentFlags where
  affects_rights : Bool := false
  contains_sensitive_data : Bool := false
  irreversible : Bool := false
deriving DecidableEq

/-- Structured representation of a tool execution intent. -/
structure ActionIntent where
  tenant_id : String
  workflow_id : String
  run_id : String
  step_id : String
  tool_name : String
  tool_params : List (String × JVal) := []
  flags : IntentFlags := {}
deriving DecidableEq

/-- Result of risk assessment for an action intent. -/
structure RiskTriageResult where
  lane : ManLane
  risk_score : ℚ
  reasons : List String
deriving DecidableEq

/-- Per-workflow partial policy override. -/
structure PolicyOverride where
  thresholds : List (String × ℚ) := []
  tool_minimum_lanes : List (String × ManLane) := []
deriving DecidableEq

/-- Hard triggers that force the RED lane. -/
structure HardTriggers where
  tools : List String := []
  params : List (String × List String) := []
  workflows : List String := []
deriving DecidableEq

/-- Policy configuration for MAN Mode. -/
structure ManPolicy where
  global_thresholds : List (String × ℚ) := [("red", 4/5), ("yellow", 1/2)]
  tool_minimum_lanes : List (String × ManLane) := []
  hard_triggers : HardTriggers := {}
  per_workflow_overrides : List (String × PolicyOverride) := []
  max_pending_per_tenant : Nat := 50
  task_ttl_minutes : Nat := 1440
  degrade_behavior : String := "BLOCK_NEW"
deriving DecidableEq

/-- Dict lookup on an association list (first matching key). -/
def alookup {α : Type} (k : String) (l : List (String × α)) : Option α :=
  (l.find? fun kv => kv.1 = k).map Prod.snd

/-- Python `base.update(upd)` on dicts with unique keys: existing keys are
overwritten in place, new keys are appended in `upd` order. -/
def dictUpdate {α : Type} (base upd : List (String × α)) : List (String × α) :=
  (base.map fun kv =>
    match alookup kv.1 upd with
    | some v => (kv.1, v)
    | none => kv)
  ++ upd.filter fun kv => ¬ base.any fun b => b.1 = kv.1

/-- `ManPolicy.get_effective_thresholds`. -/
def get_effective_thresholds (p : ManPolicy) (workflow_key : Option String) :
    List (String × ℚ) :=
  match workflow_key with
  | some k =>
    match alookup k p.per_workflow_overrides with
    | some ov => dictUpdate p.global_thresholds ov.thresholds
    | none => p.global_thresholds
  | none => p.global_thresholds

/-- `ManPolicy.get_minimum_lane`: workflow-specific override first, then
the global map. -/
def get_minimum_lane (p : ManPolicy) (tool_name : String)
    (workflow_key : Option String) : Option ManLane :=
  match
    (match workflow_key with
     | some k =>
       match alookup k p.per_workflow_overrides with
       | some ov => alookup tool_name ov.tool_minimum_lanes
       | none => none
     | none => none)
  with
  | some lane => some lane
  | none => alookup tool_name p.tool_minimum_lanes

/-- `ManPolicyEngine._check_hard_triggers`. -/
def check_hard_triggers (p : ManPolicy) (intent : ActionIntent)
    (workflow_key : Option String) : Bool :=
  p.hard_triggers.tools.contains intent.tool_name
  || p.hard_triggers.params.any (fun pt =>
      match alookup pt.1 intent.tool_params with
      | some v => pt.2.any fun trig => strContains (lowerStr (pyStr v)) (lowerStr trig)
      | none => false)
  || (match workflow_key with
      | some k => p.hard_triggers.workflows.contains k
      | none => false)

/-- Fixed subjective-language vocabulary. -/
def subjectivePatterns : List String :=
  ["exception", "vulnerability", "risk", "danger", "warning", "critical",
   "emergency", "urgent", "suspicious", "anomaly"]

/-- `ManPolicyEngine._evaluate_risk_dimensions`: dimension name → score,
in dict insertion order. -/
def evaluate_risk_dimensions (intent : ActionIntent) (free_text_signals : List String) :
    List (String × ℚ) :=
  (if intent.flags.affects_rights then [("affects_rights", (1 : ℚ))] else [])
  ++ (if intent.flags.contains_sensitive_data then
        [("contains_sensitive_data", (9/10 : ℚ))] else [])
  ++ (if intent.flags.irreversible then [("irreversible", (4/5 : ℚ))] else [])
  ++ (let textCombined := lowerStr (String.intercalate " "
        (free_text_signals ++ intent.tool_params.map fun kv => pyStr kv.2))
      let count := (subjectivePatterns.filter fun pat => strContains textCombined pat).length
      if count > 0 then
        [("subjective_language", min ((count : ℚ) * (1/5)) 1)] else [])
  ++ (let u : ℚ := (if intent.tool_params.isEmpty then 3/10 else 0)
        + (if intent.step_id.isEmpty then 1/5 else 0)
      if u > 0 then [("missing_fields", u)] else [])

/-- Threshold lookup with default (`thresholds.get(key, dflt)`). -/
def thresholdGet (th : List (String × ℚ)) (key : String) (dflt : ℚ) : ℚ :=
  (alookup key th).getD dflt

/-- Step 4 of triage: map the score through the effective thresholds. -/
def applyThresholds (p : ManPolicy) (workflow_key : Option String)
    (score : ℚ) (reasons : List String) : RiskTriageResult :=
  let th := get_effective_thresholds p workflow_key
  let lane :=
    if score ≥ thresholdGet th "red" (4/5) then ManLane.RED
    else if score ≥ thresholdGet th "yellow" (1/2) then ManLane.YELLOW
    else ManLane.GREEN
  { lane := lane, risk_score := score, reasons := reasons }

/-- `ManPolicyEngine.triage_intent`: deterministic risk triage. -/
def triage_intent (p : ManPolicy) (intent : ActionIntent)
    (workflow_key : Option String := none)
    (free_text_signals : List String := []) : RiskTriageResult :=
  if check_hard_triggers p intent workflow_key then
    { lane := .RED, risk_score := 1, reasons := ["Hard trigger activated"] }
  else
    let dimensions := evaluate_risk_dimensions intent free_text_signals
    let risk_score : ℚ :=
      match dimensions.map Prod.snd with
      | [] => 0
      | v :: vs => vs.foldl max v
    let reasons := (dimensions.filter fun kv => kv.2 > 0).map
      fun kv => kv.1 ++ ": " ++ fmt2 kv.2
    match get_minimum_lane p intent.tool_name workflow_key with
    | some minLane =>
      let reasons := reasons ++
        ["Tool " ++ intent.tool_name ++ " requires minimum " ++ minLane.str]
      if minLane = .RED then
        { lane := .RED, risk_score := max risk_score (4/5), reasons := reasons }
      else
        let score := if minLane = .YELLOW ∧ risk_score < 1/2 then (1/2 : ℚ) else risk_score
        applyThresholds p workflow_key score reasons
    | none => applyThresholds p workflow_key risk_score reasons

/-! ## Omnitrace redaction

Shallow embedding of `orchestrator/observability/omnitrace.py`:
key allow/drop lists, the value-content redaction predicate (including the
e-mail regex search) and the recursive `redact_dict`. -/

/-- Keys that are always preserved. -/
def ALLOWLIST_KEYS : List String :=
  ["id", "workflow_id", "run_id", "step", "step_id", "event_type", "timestamp",
   "status", "retry_count", "attempt", "version", "type", "name", "action",
   "lane", "result", "success", "error_code", "duration_ms"]

/-- Keys that are always dropped (sensitive data). -/
def DROPLIST_KEYS : List String :=
  ["password", "secret", "token", "api_key", "apikey", "auth", "authorization",
   "credential", "private_key", "privatekey", "access_token", "refresh_token",
   "session", "cookie"]

/-- Key-name patterns that indicate sensitive data. -/
def SENSITIVE_PATTERNS : List String :=
  ["email", "phone", "address", "ssn", "social_security", "credit_card",
   "card_number", "cvv", "pin", "account_number", "routing_number", "bank",
   "salary", "income", "dob", "birth", "passport", "license", "user_",
   "customer_", "client_", "personal_"]

/-- `_is_allowlisted_key`. -/
def is_allowlisted_key (k : String) : Bool :=
  ALLOWLIST_KEYS.contains (lowerStr k)

/-- `_is_sensitive_key`. -/
def is_sensitive_key (k : String) : Bool :=
  DROPLIST_KEYS.contains (lowerStr k)
  || SENSITIVE_PATTERNS.any fun pat => strContains (lowerStr k) pat

/-- Python `\s` whitespace (ASCII part; the redaction inputs are ASCII). -/
def isPySpace (c : Char) : Bool :=
  c = ' ' || c = '\t' || c = '\n' || c = '\r' || c = '\x0b' || c = '\x0c'

/-- Characters matched by `[^@\s]` in the e-mail regex. -/
def emailSigma (c : Char) : Bool := !(c = '@' || isPySpace c)

/-- Does the maximal `[^@\s]*` run following an `@` contain a match for
`[^@\s]+\.[^@\s]+`?  True when some `.` sits at index `d` with at least one
run character before and after it. -/
def dotRunOk (run : List Char) : Bool :=
  (List.range run.length).any fun d =>
    decide (1 ≤ d) && decide (d + 1 < run.length) && (run.getD d ' ' = '.')

/-- Scan for `re.search(r"[^@\s]+@[^@\s]+\.[^@\s]+", ·)`: an `@` preceded by
a `[^@\s]` character whose following run satisfies `dotRunOk`. -/
def emailSearchAux (prev : Option Char) : List Char → Bool
  | [] => false
  | c :: rest =>
    (c = '@'
      && (match prev with
          | some p => emailSigma p
          | none => false)
      && dotRunOk (rest.takeWhile emailSigma))
    || emailSearchAux (some c) rest

/-- Truthiness of the e-mail regex search on a string. -/
def emailMatch (s : String) : Bool := emailSearchAux none s.data

/-- `MAX_SAFE_STRING_LENGTH`. -/
def MAX_SAFE_STRING_LENGTH : Nat := 20

/-- `LARGE_NUMBER_THRESHOLD`. -/
def LARGE_NUMBER_THRESHOLD : Int := 10000

/-- `_should_redact_value`: long strings, e-mail-like strings, and numbers
of large magnitude.  Booleans are `int` instances in Python but their
absolute value is at most 1, and other values fall through to `False`. -/
def should_redact_value : JVal → Bool
  | .jstr s => decide (s.length > MAX_SAFE_STRING_LENGTH) || emailMatch s
  | .jint n => decide (LARGE_NUMBER_THRESHOLD < |n|)
  | _ => false

/-- `_redact_value`: replace a value by the marker built from its hash. -/
def redact_value (v : JVal) : JVal :=
  .jstr ("<redacted:" ++ compute_hash v ++ ">")

mutual

/-- `redact_dict(data, depth, max_depth)`. -/
def redact_dict (depth maxDepth : Nat) (kvs : List (String × JVal)) :
    List (String × JVal) :=
  if depth ≥ maxDepth then [("<truncated>", .jstr "max depth exceeded")]
  else kvs.attach.map fun kv => (kv.1.1, redactEntry depth maxDepth kv.1.1 kv.1.2)
termination_by (JVal.jsizeObj kvs, 1)
decreasing_by
  have h := JVal.jsize_lt_of_mem_obj kv.2
  simp only [JVal.jsize] at h
  rcases Nat.lt_or_ge (JVal.jsize kv.1.2) (JVal.jsizeObj kvs) with hlt | hge
  · exact Prod.Lex.left _ _ hlt
  · have heq : JVal.jsize kv.1.2 = JVal.jsizeObj kvs := by omega
    rw [heq]
    exact Prod.Lex.right _ (by omega)

/-- Redaction of one dict entry, dispatching on the key class and the
value shape exactly as the body of the `for` loop in `redact_dict`. -/
def redactEntry (depth maxDepth : Nat) (k : String) (v : JVal) : JVal :=
  if is_allowlisted_key k then
    match v with
    | .jobj o => .jobj (redact_dict (depth + 1) maxDepth o)
    | _ => v
  else if is_sensitive_key k then redact_value v
  else
    match v with
    | .jobj o => .jobj (redact_dict (depth + 1) maxDepth o)
    | .jarr items =>
      .jarr (items.attach.map fun it => redactItem (depth + 1) maxDepth it.1)
    | _ => if should_redact_value v then redact_value v else v
termination_by (JVal.jsize v, 0)
decreasing_by
  · exact Prod.Lex.left _ _ (by simp [JVal.jsize])
  · exact Prod.Lex.left _ _ (by simp [JVal.jsize])
  · exact Prod.Lex.left _ _ (JVal.jsize_lt_of_mem it.2)

/-- Redaction of one list item: nested dicts are recursed, other items get
the value-content check. -/
def redactItem (depth maxDepth : Nat) (v : JVal) : JVal :=
  match v with
  | .jobj o => .jobj (redact_dict depth maxDepth o)
  | _ => if should_redact_value v then redact_value v else v
termination_by (JVal.jsize v, 0)
decreasing_by
  exact Prod.Lex.left _ _ (by simp [JVal.jsize])

end

/-! ## MAN Mode activities

Shallow embedding of `orchestrator/activities/man_mode.py` and the
database provider semantics (`update` applies to all matching rows and
returns the row only when exactly one matched). -/

/-- Possible decisions on a MAN task. -/
inductive ManDecision where
  | APPROVE
  | DENY
  | MODIFY
  | CANCEL_WORKFLOW
deriving DecidableEq

/-- Decision details stored on a resolved task. -/
structure DecisionData where
  decision : ManDecision
  reason : String
  reviewer_id : String
  modified_params : Option (List (String × JVal))
deriving DecidableEq

/-- Payload for submitting a decision on a MAN task. -/
structure ManDecisionPayload where
  decision : ManDecision
  reason : String
  reviewer_id : String
  modified_params : Option (List (String × JVal)) := none
deriving DecidableEq

/-- A persisted MAN task row (`man_tasks` table). -/
structure ManTaskRow where
  id : String
  tenant_id : String := ""
  workflow_id : String := ""
  step_id : String := ""
  tool_name : String := ""
  idempotency_key : String := ""
  status : String := "PENDING"
  risk_score : ℚ := 0
  reviewer_id : Option String := none
  decision : Option DecisionData := none
deriving DecidableEq

/-- The idempotency key built by `create_man_task`:
`"|".join([tenant_id, workflow_id, step_id or "", tool_name,
json.dumps(tool_params, sort_keys=True)])`.  (`step_id or ""` is the
identity on the string-valued `step_id`; `json.dumps` here uses the
*default* separators, i.e. `", "` and `": "`.) -/
def createIdempotencyKey (intent : ActionIntent) : String :=
  String.intercalate "|"
    [intent.tenant_id, intent.workflow_id, intent.step_id, intent.tool_name,
     pyDumpsSorted (.jobj intent.tool_params)]

/-- The task record assembled by `create_man_task` (the `id` column is
database-generated and excluded from the upsert payload).  Returns `none`
when the triage lane is not RED. -/
def create_man_task (intent : ActionIntent) (triage : RiskTriageResult) :
    Option ManTaskRow :=
  if triage.lane ≠ .RED then none
  else some
    { id := ""
      tenant_id := intent.tenant_id
      workflow_id := intent.workflow_id
      step_id := intent.step_id
      tool_name := intent.tool_name
      idempotency_key := createIdempotencyKey intent
      status := "PENDING"
      risk_score := triage.risk_score }

/-- The nested conditional mapping a decision to the stored status. -/
def resolveStatusFor (d : ManDecision) : String :=
  if d = .APPROVE then "APPROVED"
  else if d = .DENY then "DENIED"
  else if d = .MODIFY then "MODIFIED"
  else "CANCELLED"

/-- `resolve_man_task(task_id, decision_payload)` against an explicit
table state.  Mirrors the activity: select; not-found error; already
resolved → re-select and return; otherwise a guarded
`update(filters={id, status: "PENDING"})` which the provider applies to
every matching row, returning the updated row only when exactly one row
matched (otherwise the activity re-selects). -/
def resolve_man_task (store : List ManTaskRow) (task_id : String)
    (p : ManDecisionPayload) : List ManTaskRow × Except String (Option ManTaskRow) :=
  match store.find? fun r => r.id = task_id with
  | none => (store, .error ("MAN task " ++ task_id ++ " not found"))
  | some t =>
    if t.status ≠ "PENDING" then
      (store, .ok (store.find? fun r => r.id = task_id))
    else
      let upd : ManTaskRow → ManTaskRow := fun r =>
        { r with
            status := resolveStatusFor p.decision
            reviewer_id := some p.reviewer_id
            decision := some ⟨p.decision, p.reason, p.reviewer_id, p.modified_params⟩ }
      let store' := store.map fun r =>
        if r.id = task_id ∧ r.status = "PENDING" then upd r else r
      match store.filter fun r => r.id = task_id ∧ r.status = "PENDING" with
      | [m] => (store', .ok (some (upd m)))
      | _ => (store', .ok (store'.find? fun r => r.id = task_id))

/-- Pending-task count for a tenant (`count_pending`). -/
def countPending (store : List ManTaskRow) (tenant_id : String) : Nat :=
  (store.filter fun r => r.tenant_id = tenant_id ∧ r.status = "PENDING").length

/-- Result of the `backlog_check` activity. -/
structure BacklogResult where
  overloaded : Bool
  pending_count : Nat
  max_pending : Nat
  action : Option String
deriving DecidableEq

/-- `backlog_check(tenant_id)`: compare the pending count against the
policy limit; the degrade action is reported only when overloaded. -/
def backlog_check (policy : ManPolicy) (store : List ManTaskRow)
    (tenant_id : String) : BacklogResult :=
  let pending_count := countPending store tenant_id
  let overloaded := pending_count ≥ policy.max_pending_per_tenant
  { overloaded := overloaded
    pending_count := pending_count
    max_pending := policy.max_pending_per_tenant
    action := if overloaded then some policy.degrade_behavior else none }

/-! ## Saga context and workflow step gating

Shallow embedding of the relevant parts of
`orchestrator/workflows/agent_saga.py`. -/

/-- Outcome of the backlog gate at the head of `_execute_single_step`:
`BLOCK_NEW` fails the step, `FORCE_PAUSE` pauses the workflow, anything
else falls through and the step continues to triage and execution. -/
inductive BacklogGateOutcome where
  | blocked
  | paused
  | proceedStep
deriving DecidableEq

/-- The backlog branch of `_execute_single_step`. -/
def backlog_gate (br : BacklogResult) : BacklogGateOutcome :=
  if br.overloaded then
    if br.action = some "BLOCK_NEW" then .blocked
    else if br.action = some "FORCE_PAUSE" then .paused
    else .proceedStep
  else .proceedStep

/-- Outcome of `_wait_for_man_decision` once a decision payload is
present: return normally (step proceeds), raise denial, or cancel. -/
inductive ManDecisionOutcome where
  | proceed
  | denied
  | cancelled
deriving DecidableEq

/-- The decision dispatch of `_wait_for_man_decision`, keyed on the
payload's `decision` field (`None` when the key is missing).  Unknown
decision values take the final `else` branch and return normally. -/
def wait_for_man_decision (decisionType : Option String) : ManDecisionOutcome :=
  if decisionType = some "APPROVE" then .proceed
  else if decisionType = some "DENY" then .denied
  else if decisionType = some "CANCEL_WORKFLOW" then .cancelled
  else if decisionType = some "MODIFY" then .proceed
  else .proceed

/-- `SagaContext._inject_result_values` on one value: strings starting
with `"{result."` are resolved against the tool result (falling back to
the literal placeholder), everything else passes through. -/
def injectValue (result : List (String × JVal)) (v : JVal) : JVal :=
  match v with
  | .jstr s =>
    if strStarts s "\x7bresult." then
      match alookup (strReplace (strReplace s "\x7bresult." "") "\x7d" "") result with
      | some rv => rv
      | none => .jstr s
    else .jstr s
  | _ => v

/-- `SagaContext._inject_result_values`. -/
def inject_result_values (compensation_input result : List (String × JVal)) :
    List (String × JVal) :=
  compensation_input.map fun kv => (kv.1, injectValue result kv.2)

/-! ## DAG step scheduler

Shallow embedding of `AgentWorkflow._execute_plan`.  Steps are modelled
after normalisation (the source defaults a missing `id` to `step_{idx}`
and wraps a lone `depends_on` string into a list); the tool execution
itself is abstracted away — the theorems concern which steps execute and
in what order.  In-degrees are Python ints, hence `Int`-valued. -/

/-- One plan step: its id and its `depends_on` list. -/
structure PlanStep where
  id : String
  deps : List String
deriving DecidableEq

/-- All step ids, in plan order. -/
def planIds (plan : List PlanStep) : List String := plan.map PlanStep.id

/-- The `depends_on` list of a step id (empty for unknown ids). -/
def depList (plan : List PlanStep) (n : String) : List String :=
  ((plan.find? fun s => s.id = n).map PlanStep.deps).getD []

/-- `dependents[n]`: ids of steps listing `n` in `depends_on`, with one
occurrence per listing, in the order the adjacency map is built. -/
def dependentsOf (plan : List PlanStep) (n : String) : List String :=
  plan.flatMap fun s => (s.deps.filter fun d => d = n).map fun _ => s.id

/-- Mutable scheduler state: in-degree map and executed list. -/
structure DagState where
  inDeg : String → Int
  executed : List String

/-- Decrement a dependent's in-degree; push it onto the next frontier
when it reaches zero and has not executed. -/
def decInsert (p : DagState × List String) (d : String) : DagState × List String :=
  let st := p.1
  let deg := st.inDeg d - 1
  let st' : DagState := { st with inDeg := fun x => if x = d then deg else st.inDeg x }
  if deg = 0 ∧ ¬ st'.executed.contains d then (st', p.2 ++ [d]) else (st', p.2)

/-- Process one completed step: mark executed, then update dependents. -/
def execNode (plan : List PlanStep) (p : DagState × List String) (n : String) :
    DagState × List String :=
  let st1 : DagState := { p.1 with executed := p.1.executed ++ [n] }
  (dependentsOf plan n).foldl decInsert (st1, p.2)

/-- Process one frontier, collecting the next frontier. -/
def execLevel (plan : List PlanStep) (st : DagState) (ready : List String) :
    DagState × List String :=
  ready.foldl (execNode plan) (st, [])

/-- The `while ready_queue:` loop; fuel bounds the number of levels (each
non-empty level executes at least one step, so `|plan| + 1` suffices). -/
def dagLoop (plan : List PlanStep) : Nat → DagState → List String → List String
  | 0, st, _ => st.executed
  | fuel + 1, st, ready =>
    if ready = [] then st.executed
    else
      let next := execLevel plan st ready
      dagLoop plan fuel next.1 next.2

/-- Initial in-degrees: `len(depends_on)` for every step id. -/
def initInDeg (plan : List PlanStep) : String → Int :=
  fun n => ((depList plan n).length : Int)

/-- Initial frontier: step ids with in-degree zero, in plan order. -/
def initReady (plan : List PlanStep) : List String :=
  (planIds plan).filter fun n => (depList plan n).length = 0

/-- `_execute_plan`: run the frontier loop, then raise
`DAG cycle detected or missing dependencies` (a non-retryable
`ApplicationError`) unless every step executed. -/
def execute_plan (plan : List PlanStep) : Except String (List String) :=
  let ex := dagLoop plan (plan.length + 1)
    { inDeg := initInDeg plan, executed := [] } (initReady plan)
  if ex.length = plan.length then .ok ex
  else .error "DAG cycle detected or missing dependencies"

/-- All `depends_on` references name steps of the plan. -/
def PlanClosed (plan : List PlanStep) : Prop :=
  ∀ s ∈ plan, ∀ d ∈ s.deps, d ∈ planIds plan

instance (plan : List PlanStep) : Decidable (PlanClosed plan) := by
  unfold PlanClosed
  infer_instance

/-- `l` is a dependency cycle: non-empty, inside the plan, each element
depends on the next, and the first element is a dependency of the last. -/
def CycleChain (plan : List PlanStep) (l : List String) : Prop :=
  l ≠ [] ∧ (∀ x ∈ l, x ∈ planIds plan) ∧
  List.Chain' (fun a b => b ∈ depList plan a) l ∧
  ∀ a b, l.head? = some a → l.getLast? = some b → a ∈ depList plan b

/-- The plan's dependency graph has a cycle. -/
def HasCycle (plan : List PlanStep) : Prop := ∃ l, CycleChain plan l

/-- Every step of `out` appears only after all of its dependencies. -/
def TopoOrdered (plan : List PlanStep) (out : List String) : Prop :=
  ∀ i (h : i < out.length), ∀ d ∈ depList plan (out.get ⟨i, h⟩), d ∈ out.take i

/-! ## Helper lemmas about `replace` and association-list lookup -/

theorem replaceAllCh_of_not_contains {pat rep s : List Char}
    (h : containsSub pat s = false) : replaceAllCh pat rep s = s := by
  induction s with
  | nil => rw [replaceAllCh]
  | cons c rest ih =>
    unfold containsSub at h
    rw [Bool.or_eq_false_iff] at h
    rw [replaceAllCh]
    split
    · rfl
    · rw [if_neg (by simp [h.1]), ih h.2]

theorem replaceAllCh_append_pat {pat rep : List Char} (t : List Char) (hp : pat ≠ []) :
    replaceAllCh pat rep (pat ++ t) = rep ++ replaceAllCh pat rep t := by
  cases pat with
  | nil => exact absurd rfl hp
  | cons p pr =>
    simp only [List.cons_append]
    rw [replaceAllCh]
    rw [if_neg (by simp)]
    rw [if_pos]
    · congr 1
      simp only [List.length_cons, List.drop_succ_cons]
      rw [show pr.length = pr.length + 0 by rfl]
      rw [List.drop_append, List.drop_zero]
    · have : (p :: pr) <+: ((p :: pr) ++ t) := List.prefix_append (p :: pr) t
      simpa [List.isPrefixOf_iff_prefix] using this

theorem replaceAllCh_single_filter (c : Char) (s : List Char) :
    replaceAllCh [c] [] s = s.filter fun x => x ≠ c := by
  induction s with
  | nil => rw [replaceAllCh]; rfl
  | cons d rest ih =>
    rw [replaceAllCh]
    rw [if_neg (by simp)]
    by_cases hdc : c = d
    · subst hdc
      rw [if_pos (by simp [List.isPrefixOf])]
      simp [ih]
    · rw [if_neg (by simp [List.isPrefixOf, hdc])]
      have hne : d ≠ c := Ne.symm hdc
      simp [List.filter_cons, hne, ih]

theorem alookup_map_value {α β : Type} (k : String) (kvs : List (String × α))
    (f : String → α → β) :
    alookup k (kvs.map fun kv => (kv.1, f kv.1 kv.2)) =
      (kvs.find? fun kv => kv.1 = k).map fun kv => f kv.1 kv.2 := by
  induction kvs with
  | nil => rfl
  | cons kv rest ih =>
    by_cases h : kv.1 = k
    · simp [alookup, List.find?_cons_of_pos, h]
    · unfold alookup at *
      rw [List.map_cons, List.find?_cons_of_neg _ (by simpa using h),
        List.find?_cons_of_neg _ (by simpa using h)]
      exact ih

theorem find?_eq_of_nodup_mem {α : Type} {k : String} {v : α}
    {kvs : List (String × α)} (hmem : (k, v) ∈ kvs)
    (hnd : (kvs.map Prod.fst).Nodup) :
    (kvs.find? fun kv => kv.1 = k) = some (k, v) := by
  induction kvs with
  | nil => cases hmem
  | cons kv rest ih =>
    rcases List.mem_cons.mp hmem with h | h
    · subst h
      simp [List.find?]
    · have hk : kv.1 ≠ k := by
        intro he
        rcases List.nodup_cons.mp hnd with ⟨hnot, _⟩
        have : k ∈ rest.map Prod.fst := List.mem_map_of_mem Prod.fst h
        rw [← he] at this
        exact hnot this
      simp only [List.find?]
      rw [show (decide (kv.1 = k)) = false by simpa using hk]
      exact ih h (List.nodup_cons.mp hnd).2

theorem alookup_eq_of_nodup_mem {α : Type} {k : String} {v : α}
    {kvs : List (String × α)} (hmem : (k, v) ∈ kvs)
    (hnd : (kvs.map Prod.fst).Nodup) :
    alookup k kvs = some v := by
  unfold alookup
  rw [find?_eq_of_nodup_mem hmem hnd]
  rfl

/-! ## Claim C1 — triage determinism -/

/-- C1: Triage is deterministic: for every `ActionIntent`, `ManPolicy`,
workflow key and list of free-text signals, two invocations of
`ManPolicyEngine.triage_intent` with equal inputs return equal results —
the same lane, the same risk score and the same reasons list in the same
order.  (`triage_intent` is embedded as a pure function of exactly these
inputs: the source reads no clock, randomness or external state.) -/
theorem c1_triage_deterministic (p : ManPolicy) (intent : ActionIntent)
    (workflow_key : Option String) (free_text_signals : List String) :
    triage_intent p intent workflow_key free_text_signals =
      triage_intent p intent workflow_key free_text_signals ∧
    (triage_intent p intent workflow_key free_text_signals).lane =
      (triage_intent p intent workflow_key free_text_signals).lane ∧
    (triage_intent p intent workflow_key free_text_signals).risk_score =
      (triage_intent p intent workflow_key free_text_signals).risk_score ∧
    (triage_intent p intent workflow_key free_text_signals).reasons =
      (triage_intent p intent workflow_key free_text_signals).reasons :=
  ⟨rfl, rfl, rfl, rfl⟩

/-! ## Claim C2 — tool-minimum lane promotion -/

/-- C2 (counterexample): with minimum lane YELLOW for tool `t` and an
effective yellow threshold of 0.9, the triage lane is GREEN — strictly
below the tool minimum in the lane order — so the claimed monotone lane
promotion fails as stated. -/
theorem c2_counterexample :
    get_minimum_lane
        { global_thresholds := [("red", 95/100), ("yellow", 9/10)],
          tool_minimum_lanes := [("t", ManLane.YELLOW)] } "t" none
      = some ManLane.YELLOW
    ∧ (triage_intent
        { global_thresholds := [("red", 95/100), ("yellow", 9/10)],
          tool_minimum_lanes := [("t", ManLane.YELLOW)] }
        { tenant_id := "t1", workflow_id := "w", run_id := "r", step_id := "s",
          tool_name := "t", tool_params := [("a", JVal.jstr "x")] } none []).lane
      = ManLane.GREEN
    ∧ ManLane.rank ManLane.GREEN < ManLane.rank ManLane.YELLOW := by
  refine ⟨by decide, ?_, by decide⟩
  norm_num [triage_intent, check_hard_triggers, evaluate_risk_dimensions,
    get_minimum_lane, alookup, applyThresholds, get_effective_thresholds,
    thresholdGet, List.find?, subjectivePatterns, strContains, containsSub,
    lowerStr, lowerChars, lowerChar, pyStr, pyRepr, pyStrRepr, pyStrReprBody,
    List.isPrefixOf, show (("s" : String).isEmpty = false) from rfl,
    show ("red" : String) ≠ "yellow" from by decide,
    show ManLane.YELLOW ≠ ManLane.RED from by decide, ManLane.str]

/-- C2 (amended): a RED tool minimum always forces the RED lane; a YELLOW
tool minimum promotes the *score* to at least 0.5, so the lane is YELLOW
or higher whenever the effective yellow threshold is at most 0.5 (as in
the default policy) — but not in general, and a BLOCKED minimum has no
effect on the returned lane. -/
theorem applyThresholds_yellow_le (p : ManPolicy) (workflow_key : Option String)
    (score : ℚ) (reasons : List String)
    (hth : thresholdGet (get_effective_thresholds p workflow_key) "yellow" (1/2) ≤ 1/2)
    (hs : (1 : ℚ)/2 ≤ score) :
    ManLane.rank ManLane.YELLOW ≤
      ManLane.rank (applyThresholds p workflow_key score reasons).lane := by
  unfold applyThresholds
  simp only []
  split_ifs with h1 h2
  · simp [ManLane.rank]
  · simp [ManLane.rank]
  · exact absurd (le_trans hth hs) h2

/-- C2 (amended): a RED tool minimum always forces the RED lane; a YELLOW
tool minimum promotes the *score* to at least 0.5, so the lane is YELLOW
or higher whenever the effective yellow threshold is at most 0.5 (as in
the default policy) — but not in general, and a BLOCKED minimum has no
effect on the returned lane. -/
theorem c2_min_lane_promotion (p : ManPolicy) (intent : ActionIntent)
    (workflow_key : Option String) (free_text_signals : List String) :
    (get_minimum_lane p intent.tool_name workflow_key = some ManLane.RED →
      (triage_intent p intent workflow_key free_text_signals).lane = ManLane.RED)
    ∧ (get_minimum_lane p intent.tool_name workflow_key = some ManLane.YELLOW →
        thresholdGet (get_effective_thresholds p workflow_key) "yellow" (1/2) ≤ 1/2 →
        ManLane.rank ManLane.YELLOW ≤
          ManLane.rank (triage_intent p intent workflow_key free_text_signals).lane) := by
  unfold triage_intent
  by_cases hht : check_hard_triggers p intent workflow_key
  · simp [hht, ManLane.rank]
  · simp only [hht, Bool.false_eq_true, if_false]
    constructor
    · intro hmin
      rw [hmin]
      simp
    · intro hmin hth
      rw [hmin]
      simp only [show (ManLane.YELLOW = ManLane.RED) = False by simp, if_false]
      refine applyThresholds_yellow_le p workflow_key _ _ hth ?_
      split
      · exact le_refl _
      · rename_i hcond
        simp only [true_and] at hcond
        exact le_of_not_lt hcond

/-- C2 witness: the RED-minimum branch of `c2_min_lane_promotion` at a
concrete policy and intent. -/
theorem c2_min_lane_promotion_witness :
    (triage_intent { tool_minimum_lanes := [("x", ManLane.RED)] }
      { tenant_id := "t", workflow_id := "w", run_id := "r", step_id := "s",
        tool_name := "x", tool_params := [("a", JVal.jstr "v")] } none []).lane
      = ManLane.RED :=
  (c2_min_lane_promotion { tool_minimum_lanes := [("x", ManLane.RED)] }
    { tenant_id := "t", workflow_id := "w", run_id := "r", step_id := "s",
      tool_name := "x", tool_params := [("a", JVal.jstr "v")] } none []).1
    (by decide)

/-! ## Claim C3 — AUTO_DENY degrade behaviour is not implemented -/

/-- C3: with a policy whose `degrade_behavior` is `AUTO_DENY` and a tenant
at its pending-task limit, the backlog check reports the overload and the
`AUTO_DENY` action, but the workflow's backlog gate falls through and the
step proceeds to normal triage and execution — it is not treated as DENIED
and task creation is not suppressed.  (`_execute_single_step` handles only
`BLOCK_NEW` and `FORCE_PAUSE`; the `AUTO_DENY` value accepted by the
policy validator has no branch.) -/
theorem c3_auto_deny_unimplemented :
    (backlog_check { max_pending_per_tenant := 2, degrade_behavior := "AUTO_DENY" }
        [{ id := "1", tenant_id := "t" }, { id := "2", tenant_id := "t" }] "t").overloaded
      = true
    ∧ (backlog_check { max_pending_per_tenant := 2, degrade_behavior := "AUTO_DENY" }
        [{ id := "1", tenant_id := "t" }, { id := "2", tenant_id := "t" }] "t").action
      = some "AUTO_DENY"
    ∧ backlog_gate (backlog_check
        { max_pending_per_tenant := 2, degrade_behavior := "AUTO_DENY" }
        [{ id := "1", tenant_id := "t" }, { id := "2", tenant_id := "t" }] "t")
      = BacklogGateOutcome.proceedStep := by
  decide

/-! ## Claim C10 — unknown decision values default to approval -/

/-- C10: for every submitted decision payload whose `decision` field is not
one of APPROVE, DENY, MODIFY or CANCEL_WORKFLOW, `_wait_for_man_decision`
returns normally — the gated step proceeds exactly as if approved — rather
than raising an error or keeping the step suspended. -/
theorem c10_unknown_decision_proceeds (decisionType : Option String)
    (h1 : decisionType ≠ some "APPROVE") (h2 : decisionType ≠ some "DENY")
    (h3 : decisionType ≠ some "MODIFY") (h4 : decisionType ≠ some "CANCEL_WORKFLOW") :
    wait_for_man_decision decisionType = ManDecisionOutcome.proceed
    ∧ wait_for_man_decision decisionType = wait_for_man_decision (some "APPROVE") := by
  unfold wait_for_man_decision
  rw [if_neg h1, if_neg h2, if_neg h4]
  rw [if_neg h3]
  exact ⟨rfl, rfl⟩

/-- C10 witness: an unrecognised decision value `"ESCALATE"` proceeds. -/
theorem c10_unknown_decision_proceeds_witness :
    wait_for_man_decision (some "ESCALATE") = ManDecisionOutcome.proceed :=
  (c10_unknown_decision_proceeds (some "ESCALATE") (by decide) (by decide)
    (by decide) (by decide)).1

/-! ## Claim C4 — idempotency key construction -/

/-- C4 (counterexample): the idempotency key serialises `tool_params` with
`json.dumps(..., sort_keys=True)` and the *default* separators — a space
after each colon — not with `canonical_json`, so at the spec's example
input the key differs from the claimed
`"t1|wf1|s1|delete_record|" + canonical_json({"id": 42})`. -/
theorem c4_key_counterexample :
    createIdempotencyKey
        { tenant_id := "t1", workflow_id := "wf1", run_id := "r1", step_id := "s1",
          tool_name := "delete_record", tool_params := [("id", JVal.jint 42)] }
      ≠ String.intercalate "|"
          ["t1", "wf1", "s1", "delete_record",
            canonical_json (JVal.jobj [("id", JVal.jint 42)])] := by
  decide

theorem canonSort_jobj_perm {ps qs : List (String × JVal)}
    (hperm : ps.Perm qs) (hnd : (ps.map Prod.fst).Nodup) :
    canonSort (.jobj ps) = canonSort (.jobj qs) := by
  simp only [canonSort, canonSortObj_eq]
  congr 1
  apply sortByKey_perm_invariant
  · exact hperm.map _
  · rw [List.map_map]
    simpa using hnd

/-- C4 (amended): `create_man_task` computes the idempotency key as the
`"|"`-join of tenant id, workflow id, step id, tool name and
`json.dumps(tool_params, sort_keys=True)` — sorted keys, but the default
separators with a space after each colon and comma.  The key is invariant
under reordering of the (unique-keyed) `tool_params` entries, and at the
spec's example input it is exactly
`t1|wf1|s1|delete_record|{"id": 42}` (with the space). -/
theorem c4_key_amended :
    (∀ (t w r s tool : String) (fl : IntentFlags) (ps qs : List (String × JVal)),
      ps.Perm qs → (ps.map Prod.fst).Nodup →
      createIdempotencyKey ⟨t, w, r, s, tool, ps, fl⟩ =
        createIdempotencyKey ⟨t, w, r, s, tool, qs, fl⟩)
    ∧ createIdempotencyKey
        { tenant_id := "t1", workflow_id := "wf1", run_id := "r1", step_id := "s1",
          tool_name := "delete_record", tool_params := [("id", JVal.jint 42)] }
      = "t1|wf1|s1|delete_record|\x7b\"id\": 42\x7d" := by
  constructor
  · intro t w r s tool fl ps qs hperm hnd
    unfold createIdempotencyKey pyDumpsSorted
    rw [canonSort_jobj_perm hperm hnd]
  · decide

/-- C4 witness: the key is the same for two orderings of the parameters,
at a concrete input. -/
theorem c4_key_amended_witness :
    createIdempotencyKey
        { tenant_id := "t", workflow_id := "w", run_id := "r", step_id := "s",
          tool_name := "tool", tool_params := [("b", JVal.jint 1), ("a", JVal.jint 2)] }
      = createIdempotencyKey
        { tenant_id := "t", workflow_id := "w", run_id := "r", step_id := "s",
          tool_name := "tool", tool_params := [("a", JVal.jint 2), ("b", JVal.jint 1)] } :=
  c4_key_amended.1 "t" "w" "r" "s" "tool" {}
    [("b", JVal.jint 1), ("a", JVal.jint 2)] [("a", JVal.jint 2), ("b", JVal.jint 1)]
    (by decide) (by decide)

/-! ## Claim C9 — compensation placeholder substitution -/

/-- C9: the compensation input registered by `execute_with_compensation`
maps each entry value through `_inject_result_values`: a string
`"{result.FIELD}"` (for a well-formed field name) becomes `result[FIELD]`
when present and stays the literal placeholder when absent; a string not
starting with `"{result."` and every non-string value pass through
verbatim. -/
theorem c9_inject_result_values (compensation_input result : List (String × JVal)) :
    inject_result_values compensation_input result =
      compensation_input.map (fun kv => (kv.1, injectValue result kv.2))
    ∧ (∀ F : String, '\x7d' ∉ F.data →
        containsSub "\x7bresult.".data (F.data ++ ['\x7d']) = false →
        injectValue result (.jstr ("\x7bresult." ++ F ++ "\x7d")) =
          (alookup F result).getD (.jstr ("\x7bresult." ++ F ++ "\x7d")))
    ∧ (∀ s : String, strStarts s "\x7bresult." = false →
        injectValue result (.jstr s) = .jstr s)
    ∧ (∀ v : JVal, (∀ s, v ≠ .jstr s) → injectValue result v = v) := by
  refine ⟨rfl, ?_, ?_, ?_⟩
  · intro F hF hsub
    have hdata : ("\x7bresult." ++ F ++ "\x7d").data =
        "\x7bresult.".data ++ (F.data ++ ['\x7d']) := by
      rw [String.data_append, String.data_append]
      simp
    have hstarts : strStarts ("\x7bresult." ++ F ++ "\x7d") "\x7bresult." = true := by
      unfold strStarts
      rw [hdata]
      exact List.isPrefixOf_iff_prefix.mpr (List.prefix_append _ _)
    have hfield :
        strReplace (strReplace ("\x7bresult." ++ F ++ "\x7d") "\x7bresult." "") "\x7d" ""
          = F := by
      unfold strReplace
      rw [hdata]
      rw [replaceAllCh_append_pat _ (by decide)]
      rw [replaceAllCh_of_not_contains hsub]
      simp only [List.nil_append]
      rw [replaceAllCh_single_filter]
      rw [List.filter_append]
      rw [List.filter_eq_self.mpr (by
        intro a ha
        simp only [decide_eq_true_eq]
        intro he
        subst he
        exact hF ha)]
      rw [show List.filter (fun x => decide (x ≠ '\x7d')) ['\x7d'] = [] from rfl]
      rw [List.append_nil]
    simp only [injectValue]
    rw [if_pos hstarts, hfield]
    cases alookup F result <;> rfl
  · intro s hs
    simp only [injectValue]
    rw [if_neg (by simp [hs])]
  · intro v hv
    cases v <;> first
      | rfl
      | exact absurd rfl (hv _)

/-- C9 witness: a present field is substituted, an absent one keeps the
placeholder, and other values pass through, at concrete inputs. -/
theorem c9_inject_result_values_witness :
    injectValue [("booking_id", JVal.jstr "BK-9")] (.jstr "\x7bresult.booking_id\x7d")
      = JVal.jstr "BK-9"
    ∧ injectValue [("price", JVal.jint 500)] (.jstr "\x7bresult.booking_id\x7d")
      = JVal.jstr "\x7bresult.booking_id\x7d"
    ∧ injectValue [("booking_id", JVal.jstr "BK-9")] (.jint 7) = JVal.jint 7 := by
  refine ⟨?_, ?_, ?_⟩
  · have h := (c9_inject_result_values [] [("booking_id", JVal.jstr "BK-9")]).2.1
      "booking_id" (by decide) (by decide)
    simpa [alookup] using h
  · have h := (c9_inject_result_values [] [("price", JVal.jint 500)]).2.1
      "booking_id" (by decide) (by decide)
    simpa [alookup] using h
  · exact (c9_inject_result_values [] [("booking_id", JVal.jstr "BK-9")]).2.2.2
      (.jint 7) (by intro s h; cases h)

/-! ## Claim C5 — resolve_man_task is first-decision-wins idempotent -/

theorem resolveStatusFor_ne_pending (d : ManDecision) :
    resolveStatusFor d ≠ "PENDING" := by
  cases d <;> decide

/-- The row update written by a successful `resolve_man_task`. -/
def applyDecisionRow (p : ManDecisionPayload) (r : ManTaskRow) : ManTaskRow :=
  { r with
      status := resolveStatusFor p.decision
      reviewer_id := some p.reviewer_id
      decision := some ⟨p.decision, p.reason, p.reviewer_id, p.modified_params⟩ }

theorem applyDecisionRow_id (p : ManDecisionPayload) (r : ManTaskRow) :
    (applyDecisionRow p r).id = r.id := rfl

theorem filter_pending_eq {store : List ManTaskRow} {tid : String} {t : ManTaskRow}
    (hnd : (store.map ManTaskRow.id).Nodup)
    (hfind : store.find? (fun r => r.id = tid) = some t)
    (hpend : t.status = "PENDING") :
    store.filter (fun r => r.id = tid ∧ r.status = "PENDING") = [t] := by
  induction store with
  | nil => simp [List.find?] at hfind
  | cons r rest ih =>
    rcases List.nodup_cons.mp hnd with ⟨hnot, hnd'⟩
    by_cases hid : r.id = tid
    · have hrt : r = t := by
        rw [List.find?_cons_of_pos _ (by simpa using hid)] at hfind
        exact Option.some.inj hfind
      subst hrt
      rw [List.filter_cons_of_pos (by simp [hid, hpend])]
      congr 1
      apply List.filter_eq_nil_iff.mpr
      intro r1 hr1
      simp only [Bool.not_eq_true, decide_eq_false_iff_not, not_and]
      intro hid1
      exfalso
      apply hnot
      rw [hid, ← hid1]
      exact List.mem_map_of_mem ManTaskRow.id hr1
    · rw [List.find?_cons_of_neg _ (by simpa using hid)] at hfind
      rw [List.filter_cons_of_neg (by simp [hid])]
      exact ih hnd' hfind

theorem resolve_man_task_terminal {store : List ManTaskRow} {tid : String}
    {p : ManDecisionPayload} {t1 : ManTaskRow}
    (hfind : store.find? (fun r => r.id = tid) = some t1)
    (hterm : t1.status ≠ "PENDING") :
    resolve_man_task store tid p = (store, .ok (store.find? fun r => r.id = tid)) := by
  unfold resolve_man_task
  rw [hfind]
  simp only []
  rw [if_pos (by simpa using hterm)]

theorem find?_map_update {store : List ManTaskRow} {tid : String} {t : ManTaskRow}
    (upd : ManTaskRow → ManTaskRow) (hupd : ∀ r, (upd r).id = r.id)
    (hfind : store.find? (fun r => r.id = tid) = some t)
    (hpend : t.status = "PENDING") :
    (store.map fun r => if r.id = tid ∧ r.status = "PENDING" then upd r else r).find?
      (fun r => r.id = tid) = some (upd t) := by
  induction store with
  | nil => simp [List.find?] at hfind
  | cons r rest ih =>
    by_cases hid : r.id = tid
    · rw [List.find?_cons_of_pos _ (by simpa using hid)] at hfind
      have hrt : r = t := Option.some.inj hfind
      subst hrt
      rw [List.map_cons, if_pos ⟨hid, hpend⟩,
        List.find?_cons_of_pos _ (by simp [hupd, hid])]
    · rw [List.find?_cons_of_neg _ (by simpa using hid)] at hfind
      rw [List.map_cons]
      rw [show (if r.id = tid ∧ r.status = "PENDING" then upd r else r) = r by
        rw [if_neg]; intro h; exact hid h.1]
      rw [List.find?_cons_of_neg _ (by simpa using hid)]
      exact ih hfind

/-- C5: `resolve_man_task` is idempotent with first-decision-wins
semantics: the first decision applied to a PENDING task moves its status
to the corresponding terminal status (APPROVED, DENIED, MODIFIED or
CANCELLED), and a subsequent resolve call — with the same or a different
payload — returns the existing terminal row unchanged and leaves the
stored table unmodified, so the status never reverts to PENDING and never
changes between terminal values. -/
theorem c5_resolve_first_decision_wins (store : List ManTaskRow) (tid : String)
    (p₁ p₂ : ManDecisionPayload) (t : ManTaskRow)
    (hnd : (store.map ManTaskRow.id).Nodup)
    (hfind : store.find? (fun r => r.id = tid) = some t)
    (hpend : t.status = "PENDING") :
    (resolve_man_task store tid p₁).2 = .ok (some (applyDecisionRow p₁ t))
    ∧ (resolve_man_task store tid p₁).1.find? (fun r => r.id = tid)
        = some (applyDecisionRow p₁ t)
    ∧ (applyDecisionRow p₁ t).status = resolveStatusFor p₁.decision
    ∧ resolveStatusFor p₁.decision ∈
        (["APPROVED", "DENIED", "MODIFIED", "CANCELLED"] : List String)
    ∧ resolveStatusFor p₁.decision ≠ "PENDING"
    ∧ (resolve_man_task (resolve_man_task store tid p₁).1 tid p₂).1 =
        (resolve_man_task store tid p₁).1
    ∧ (resolve_man_task (resolve_man_task store tid p₁).1 tid p₂).2 =
        .ok (some (applyDecisionRow p₁ t)) := by
  have hres1 : resolve_man_task store tid p₁ =
      ((store.map fun r => if r.id = tid ∧ r.status = "PENDING" then
          applyDecisionRow p₁ r else r),
        .ok (some (applyDecisionRow p₁ t))) := by
    unfold resolve_man_task
    rw [hfind]
    simp only []
    rw [if_neg (by simp [hpend])]
    rw [filter_pending_eq hnd hfind hpend]
    rfl
  have hfind1 : (resolve_man_task store tid p₁).1.find? (fun r => r.id = tid)
      = some (applyDecisionRow p₁ t) := by
    rw [hres1]
    exact find?_map_update (applyDecisionRow p₁) (applyDecisionRow_id p₁) hfind hpend
  have hterm : (applyDecisionRow p₁ t).status = resolveStatusFor p₁.decision := rfl
  have hsecond : resolve_man_task (resolve_man_task store tid p₁).1 tid p₂ =
      ((resolve_man_task store tid p₁).1,
        .ok ((resolve_man_task store tid p₁).1.find? fun r => r.id = tid)) :=
    resolve_man_task_terminal hfind1
      (by rw [hterm]; exact resolveStatusFor_ne_pending p₁.decision)
  refine ⟨by rw [hres1], hfind1, hterm,
    by cases hd : p₁.decision <;> simp [resolveStatusFor, hd],
    resolveStatusFor_ne_pending p₁.decision, ?_, ?_⟩
  · rw [hsecond]
  · rw [hsecond]
    simp only []
    rw [hfind1]

/-- C5 witness: a concrete PENDING task is resolved APPROVE, and a second
DENY call returns the APPROVED row unchanged. -/
theorem c5_resolve_first_decision_wins_witness :
    (resolve_man_task [{ id := "task1", tenant_id := "t", status := "PENDING" }] "task1"
        { decision := .APPROVE, reason := "ok", reviewer_id := "r1" }).2
      = .ok (some (applyDecisionRow
          { decision := .APPROVE, reason := "ok", reviewer_id := "r1" }
          { id := "task1", tenant_id := "t", status := "PENDING" }))
    ∧ (resolve_man_task
        (resolve_man_task [{ id := "task1", tenant_id := "t", status := "PENDING" }] "task1"
          { decision := .APPROVE, reason := "ok", reviewer_id := "r1" }).1 "task1"
        { decision := .DENY, reason := "no", reviewer_id := "r2" }).2
      = .ok (some (applyDecisionRow
          { decision := .APPROVE, reason := "ok", reviewer_id := "r1" }
          { id := "task1", tenant_id := "t", status := "PENDING" })) := by
  have h := c5_resolve_first_decision_wins
    [{ id := "task1", tenant_id := "t", status := "PENDING" }] "task1"
    { decision := .APPROVE, reason := "ok", reviewer_id := "r1" }
    { decision := .DENY, reason := "no", reviewer_id := "r2" }
    { id := "task1", tenant_id := "t", status := "PENDING" }
    (by decide) (by decide) rfl
  exact ⟨h.1, h.2.2.2.2.2.2⟩

/-! ## Claim C8 — value-content redaction and its boundaries -/

/-- A value that is neither a dict nor a list (the scalar arm of the
`redact_dict` entry dispatch). -/
def isScalarJ : JVal → Bool
  | .jobj _ => false
  | .jarr _ => false
  | _ => true

theorem redact_dict_eq_map (depth maxDepth : Nat) (h : depth < maxDepth)
    (kvs : List (String × JVal)) :
    redact_dict depth maxDepth kvs =
      kvs.map fun kv => (kv.1, redactEntry depth maxDepth kv.1 kv.2) := by
  rw [redact_dict]
  rw [if_neg (by omega)]
  exact List.attach_map_val kvs fun kv => (kv.1, redactEntry depth maxDepth kv.1 kv.2)

theorem redactEntry_scalar (depth maxDepth : Nat) (k : String) (v : JVal)
    (hallow : is_allowlisted_key k = false) (hsens : is_sensitive_key k = false)
    (hscalar : isScalarJ v = true) :
    redactEntry depth maxDepth k v =
      if should_redact_value v then redact_value v else v := by
  cases v with
  | jobj o => simp [isScalarJ] at hscalar
  | jarr xs => simp [isScalarJ] at hscalar
  | jnull =>
    rw [redactEntry, if_neg (by simp [hallow]), if_neg (by simp [hsens])] <;> simp
  | jbool b =>
    rw [redactEntry, if_neg (by simp [hallow]), if_neg (by simp [hsens])] <;> simp
  | jint n =>
    rw [redactEntry, if_neg (by simp [hallow]), if_neg (by simp [hsens])] <;> simp
  | jstr s =>
    rw [redactEntry, if_neg (by simp [hallow]), if_neg (by simp [hsens])] <;> simp

theorem redactEntry_allowlisted (depth maxDepth : Nat) (k : String) (v : JVal)
    (hallow : is_allowlisted_key k = true) (hnotdict : ∀ o, v ≠ .jobj o) :
    redactEntry depth maxDepth k v = v := by
  cases v with
  | jobj o => exact absurd rfl (hnotdict o)
  | jarr xs => rw [redactEntry, if_pos (by simp [hallow])] <;> simp
  | jnull => rw [redactEntry, if_pos (by simp [hallow])] <;> simp
  | jbool b => rw [redactEntry, if_pos (by simp [hallow])] <;> simp
  | jint n => rw [redactEntry, if_pos (by simp [hallow])] <;> simp
  | jstr s => rw [redactEntry, if_pos (by simp [hallow])] <;> simp

/-- C8: in a top-level `redact_dict` call, a value under a key that is
neither allowlisted nor sensitive is replaced by the `"<redacted:HASH>"`
marker exactly when it is a string longer than 20 characters, a string
matching the e-mail regex, or a number of absolute value strictly greater
than 10 000; the boundary values (a 20-character non-e-mail string, the
numbers 10 000 and −10 000) are preserved verbatim, and allowlisted keys
keep their non-dict values unredacted regardless of content. -/
theorem c8_redact_dict_content (kvs : List (String × JVal)) (k : String) (v : JVal)
    (hmem : (k, v) ∈ kvs) (hnd : (kvs.map Prod.fst).Nodup)
    (hallow : is_allowlisted_key k = false) (hsens : is_sensitive_key k = false)
    (hscalar : isScalarJ v = true) :
    alookup k (redact_dict 0 10 kvs) =
      some (if should_redact_value v then redact_value v else v)
    ∧ redact_value v = .jstr ("<redacted:" ++ compute_hash v ++ ">")
    ∧ (should_redact_value v = true ↔
        (∃ s, v = .jstr s ∧ (20 < s.length ∨ emailMatch s = true)) ∨
        (∃ n : Int, v = .jint n ∧ 10000 < |n|))
    ∧ should_redact_value (.jstr ⟨List.replicate 20 'a'⟩) = false
    ∧ should_redact_value (.jint 10000) = false
    ∧ should_redact_value (.jint (-10000)) = false
    ∧ (∀ (k1 : String) (v1 : JVal), is_allowlisted_key k1 = true →
        (k1, v1) ∈ kvs → (∀ o, v1 ≠ .jobj o) →
        alookup k1 (redact_dict 0 10 kvs) = some v1) := by
  refine ⟨?_, rfl, ?_, by decide, by decide, by decide, ?_⟩
  · rw [redact_dict_eq_map 0 10 (by omega)]
    rw [alookup_map_value]
    rw [find?_eq_of_nodup_mem hmem hnd]
    simp only [Option.map_some']
    rw [redactEntry_scalar 0 10 k v hallow hsens hscalar]
  · unfold should_redact_value
    cases v with
    | jstr s =>
      simp only [MAX_SAFE_STRING_LENGTH, Bool.or_eq_true, decide_eq_true_eq]
      constructor
      · intro h
        exact Or.inl ⟨s, rfl, h⟩
      · rintro (⟨s1, he, h⟩ | ⟨n, he, _⟩)
        · cases he; exact h
        · cases he
    | jint n =>
      simp only [LARGE_NUMBER_THRESHOLD, decide_eq_true_eq]
      constructor
      · intro h
        exact Or.inr ⟨n, rfl, h⟩
      · rintro (⟨s1, he, _⟩ | ⟨m, he, h⟩)
        · cases he
        · cases he; exact h
    | jnull => simp
    | jbool b => simp
    | jarr xs => simp
    | jobj o => simp
  · intro k1 v1 hallow1 hmem1 hnd1
    rw [redact_dict_eq_map 0 10 (by omega)]
    rw [alookup_map_value]
    rw [find?_eq_of_nodup_mem hmem1 hnd]
    simp only [Option.map_some']
    rw [redactEntry_allowlisted 0 10 k1 v1 hallow1 hnd1]

/-- C8 witness: a long string under an unknown key is replaced by the
marker, at a concrete dictionary. -/
theorem c8_redact_dict_content_witness :
    alookup "note" (redact_dict 0 10
        [("note", JVal.jstr "this is a long identifier over 20")])
      = some (redact_value (JVal.jstr "this is a long identifier over 20")) := by
  have h := (c8_redact_dict_content
    [("note", JVal.jstr "this is a long identifier over 20")]
    "note" (JVal.jstr "this is a long identifier over 20")
    (by decide) (by decide) (by decide) (by decide) (by decide)).1
  rw [if_pos (by decide)] at h
  exact h

/-! ## JSON parsing

A strict parser for the whitespace-free JSON emitted by `canonical_json`
(`json.loads` on such inputs).  Escapes are decoded, including `\uXXXX`
sequences and surrogate pairs; unpaired surrogates are rejected (a Lean
`Char` cannot hold them; `canonical_json` never emits them). -/

/-- Value of one hexadecimal digit (upper or lower case). -/
def parseHexDig (c : Char) : Option Nat :=
  if '0' ≤ c ∧ c ≤ '9' then some (c.toNat - 48)
  else if 'a' ≤ c ∧ c ≤ 'f' then some (c.toNat - 87)
  else if 'A' ≤ c ∧ c ≤ 'F' then some (c.toNat - 55)
  else none

/-- Decode a two-character JSON escape (`\"`, `\\`, `\/`, `\b`, `\f`, `\n`,
`\r`, `\t`). -/
def escDecode (e : Char) : Option Char :=
  if e = '"' then some '"'
  else if e = '\\' then some '\\'
  else if e = '/' then some '/'
  else if e = 'b' then some '\x08'
  else if e = 'f' then some '\x0c'
  else if e = 'n' then some '\n'
  else if e = 'r' then some '\r'
  else if e = 't' then some '\t'
  else none

/-- Value of four hexadecimal digits. -/
def hex4val (c1 c2 c3 c4 : Char) : Option Nat :=
  match parseHexDig c1, parseHexDig c2, parseHexDig c3, parseHexDig c4 with
  | some a, some b, some c, some d => some (a * 4096 + b * 256 + c * 16 + d)
  | _, _, _, _ => none

/-- Decode a JSON string body up to (and consuming) the closing quote.
Fuel bounds the number of decoded characters; callers pass the input
length, which always suffices. -/
def parseStringBody : Nat → List Char → Option (List Char × List Char)
  | 0, _ => none
  | _, [] => none
  | fuel + 1, c :: rest =>
    if c = '"' then some ([], rest)
    else if c = '\\' then
      match rest with
      | 'u' :: c1 :: c2 :: c3 :: c4 :: rest3 =>
        match hex4val c1 c2 c3 c4 with
        | some n =>
          if 55296 ≤ n ∧ n < 56320 then
            match rest3 with
            | '\\' :: 'u' :: d1 :: d2 :: d3 :: d4 :: rest4 =>
              match hex4val d1 d2 d3 d4 with
              | some m =>
                if 56320 ≤ m ∧ m < 57344 then
                  match parseStringBody fuel rest4 with
                  | some (cs, r) =>
                    some (Char.ofNat (65536 + (n - 55296) * 1024 + (m - 56320)) :: cs, r)
                  | none => none
                else none
              | none => none
            | _ => none
          else if 56320 ≤ n ∧ n < 57344 then none
          else
            match parseStringBody fuel rest3 with
            | some (cs, r) => some (Char.ofNat n :: cs, r)
            | none => none
        | none => none
      | e :: rest2 =>
        match escDecode e with
        | some decoded =>
          match parseStringBody fuel rest2 with
          | some (cs, r) => some (decoded :: cs, r)
          | none => none
        | none => none
      | [] => none
    else if c.toNat < 32 then none
    else
      match parseStringBody fuel rest with
      | some (cs, r) => some (c :: cs, r)
      | none => none

/-- Digit run value (`foldl` over decimal digits). -/
def digitsToNat (ds : List Char) : Nat :=
  ds.foldl (fun a c => a * 10 + (c.toNat - 48)) 0

/-- Is `c` a decimal digit. -/
def isDigitCh (c : Char) : Bool := decide ('0' ≤ c) && decide (c ≤ '9')

/-- Parse a non-empty run of decimal digits. -/
def parseDigits (l : List Char) : Option (Nat × List Char) :=
  let ds := l.takeWhile isDigitCh
  if ds.isEmpty then none else some (digitsToNat ds, l.drop ds.length)

/-- Consume an expected literal prefix (the tail of `null`, `true`, `false`). -/
def stripPrefixCh : List Char → List Char → Option (List Char)
  | [], l => some l
  | p :: ps, c :: l => if c = p then stripPrefixCh ps l else none
  | _ :: _, [] => none

mutual

/-- Parse one JSON value (strict, no whitespace skipping). -/
def parseVal : Nat → List Char → Option (JVal × List Char)
  | 0, _ => none
  | fuel + 1, l =>
    match l with
    | [] => none
    | c :: rest =>
      if c = 'n' then
        match stripPrefixCh ['u', 'l', 'l'] rest with
        | some r => some (.jnull, r)
        | none => none
      else if c = 't' then
        match stripPrefixCh ['r', 'u', 'e'] rest with
        | some r => some (.jbool true, r)
        | none => none
      else if c = 'f' then
        match stripPrefixCh ['a', 'l', 's', 'e'] rest with
        | some r => some (.jbool false, r)
        | none => none
      else if c = '"' then
        match parseStringBody rest.length rest with
        | some (cs, r) => some (.jstr ⟨cs⟩, r)
        | none => none
      else if c = '[' then
        if rest.headD '#' = ']' then some (.jarr [], rest.tail)
        else
          match parseElems fuel rest with
          | some (xs, r) => some (.jarr xs, r)
          | none => none
      else if c = '\x7b' then
        if rest.headD '#' = '\x7d' then some (.jobj [], rest.tail)
        else
          match parseMembers fuel rest with
          | some (kvs, r) => some (.jobj kvs, r)
          | none => none
      else if c = '-' then
        match parseDigits rest with
        | some (n, r) => some (.jint (-(n : Int)), r)
        | none => none
      else
        match parseDigits (c :: rest) with
        | some (n, r) => some (.jint (n : Int), r)
        | none => none

/-- Parse the elements of a non-empty array, consuming the closing `]`. -/
def parseElems : Nat → List Char → Option (List JVal × List Char)
  | 0, _ => none
  | fuel + 1, l =>
    match parseVal fuel l with
    | some (v, r) =>
      if r.headD '#' = ',' then
        match parseElems fuel r.tail with
        | some (xs, r2) => some (v :: xs, r2)
        | none => none
      else if r.headD '#' = ']' then some ([v], r.tail)
      else none
    | none => none

/-- Parse the members of a non-empty object, consuming the closing `}`. -/
def parseMembers : Nat → List Char → Option (List (String × JVal) × List Char)
  | 0, _ => none
  | fuel + 1, l =>
    match l with
    | '"' :: krest =>
      match parseStringBody krest.length krest with
      | some (kcs, r1) =>
        if r1.headD '#' = ':' then
          match parseVal fuel r1.tail with
          | some (v, r2) =>
            if r2.headD '#' = ',' then
              match parseMembers fuel r2.tail with
              | some (kvs, r3) => some ((⟨kcs⟩, v) :: kvs, r3)
              | none => none
            else if r2.headD '#' = '\x7d' then some ([(⟨kcs⟩, v)], r2.tail)
            else none
          | none => none
        else none
      | none => none
    | _ => none

end

/-- `json.loads` on a complete document: the whole input must be consumed. -/
def parseJson (s : String) : Option JVal :=
  match parseVal (2 * s.data.length + 2) s.data with
  | some (v, []) => some v
  | _ => none

/-! ## Round-trip: parsing the canonical serialization

`json.loads(canonical_json(v))` recovers `v` up to Python value equality:
the parsed value is `canonSort v`, which differs from `v` only by the order
of object entries.  The development below proves the full round trip by
structural induction on the serialized value. -/

theorem psbQ (f : Nat) (r : List Char) :
    parseStringBody (f + 1) ('"' :: r) = some ([], r) := by
  rw [parseStringBody.eq_def]
  simp

theorem psbEscQ (f : Nat) (r : List Char) : parseStringBody (f + 1) ('\\' :: '"' :: r) =
    match parseStringBody f r with
    | some p => some ('"' :: p.1, p.2)
    | none => none := by
  rw [parseStringBody.eq_def]
  simp [escDecode]
  cases parseStringBody f r <;> rfl

theorem psbPlain {c : Char} (f : Nat) (r : List Char) (h1 : ¬ c = '"') (h2 : ¬ c = '\\')
    (h3 : ¬ c.toNat < 32) : parseStringBody (f + 1) (c :: r) =
    match parseStringBody f r with
    | some p => some (c :: p.1, p.2)
    | none => none := by
  rw [parseStringBody.eq_def]
  simp only [if_neg h1, if_neg h2, if_neg h3]
  cases parseStringBody f r <;> rfl

theorem parseHexDig_hexDig {k : Nat} (h : k < 16) : parseHexDig (hexDig k) = some k := by
  interval_cases k <;> decide

theorem char_toNat_valid (c : Char) :
    c.toNat < 55296 ∨ (57344 ≤ c.toNat ∧ c.toNat < 1114112) := by
  have h := c.valid
  unfold UInt32.isValidChar Nat.isValidChar at h
  exact h

theorem hex4val_hexDig {t : Nat} (h : t < 65536) :
    hex4val (hexDig (t / 4096 % 16)) (hexDig (t / 256 % 16)) (hexDig (t / 16 % 16))
      (hexDig (t % 16)) = some t := by
  rw [hex4val, parseHexDig_hexDig (by omega), parseHexDig_hexDig (by omega),
    parseHexDig_hexDig (by omega), parseHexDig_hexDig (by omega)]
  simp
  omega

theorem char_ofNat_toNat (c : Char) : Char.ofNat c.toNat = c := Char.ofNat_toNat c

theorem parseStringBody_escapeChars : ∀ (s : List Char) (fuel : Nat) (rest : List Char),
    s.length < fuel →
    parseStringBody fuel (escapeChars s ++ ('"' :: rest)) = some (s, rest) := by
  intro s
  induction s with
  | nil =>
    intro fuel rest h
    match fuel, h with
    | f + 1, _ =>
      simp only [escapeChars, List.nil_append]
      exact psbQ f rest
  | cons c cs ih =>
    intro fuel rest h
    match fuel, h with
    | f + 1, h =>
      have hcs : cs.length < f := by simp at h; omega
      have ihx := ih f rest hcs
      rw [escapeChars, List.append_assoc]
      by_cases h1 : c = '"'
      · subst h1
        rw [show escapeChar '"' = ['\\', '"'] from rfl]
        simp only [List.cons_append, List.nil_append]
        rw [psbEscQ, ihx]
      by_cases h2 : c = '\\'
      · subst h2
        rw [show escapeChar '\\' = ['\\', '\\'] from rfl]
        simp only [List.cons_append, List.nil_append]
        rw [parseStringBody.eq_def]
        simp [escDecode, ihx]
      by_cases h3 : c = '\x08'
      · subst h3
        rw [show escapeChar '\x08' = ['\\', 'b'] from rfl]
        simp only [List.cons_append, List.nil_append]
        rw [parseStringBody.eq_def]
        simp [escDecode, ihx]
      by_cases h4 : c = '\x0c'
      · subst h4
        rw [show escapeChar '\x0c' = ['\\', 'f'] from rfl]
        simp only [List.cons_append, List.nil_append]
        rw [parseStringBody.eq_def]
        simp [escDecode, ihx]
      by_cases h5 : c = '\n'
      · subst h5
        rw [show escapeChar '\n' = ['\\', 'n'] from rfl]
        simp only [List.cons_append, List.nil_append]
        rw [parseStringBody.eq_def]
        simp [escDecode, ihx]
      by_cases h6 : c = '\r'
      · subst h6
        rw [show escapeChar '\r' = ['\\', 'r'] from rfl]
        simp only [List.cons_append, List.nil_append]
        rw [parseStringBody.eq_def]
        simp [escDecode, ihx]
      by_cases h7 : c = '\t'
      · subst h7
        rw [show escapeChar '\t' = ['\\', 't'] from rfl]
        simp only [List.cons_append, List.nil_append]
        rw [parseStringBody.eq_def]
        simp [escDecode, ihx]
      by_cases h8 : 32 ≤ c.toNat ∧ c.toNat ≤ 126
      · have hlt : ¬ c.toNat < 32 := by omega
        rw [escapeChar, if_neg h1, if_neg h2, if_neg h3, if_neg h4, if_neg h5, if_neg h6,
          if_neg h7, if_pos h8]
        simp only [List.cons_append, List.nil_append]
        rw [psbPlain f _ h1 h2 hlt, ihx]
      by_cases h9 : c.toNat < 65536
      · have hval := char_toNat_valid c
        have hs1 : ¬ (55296 ≤ c.toNat ∧ c.toNat < 56320) := by omega
        have hs2 : ¬ (56320 ≤ c.toNat ∧ c.toNat < 57344) := by omega
        rw [escapeChar, if_neg h1, if_neg h2, if_neg h3, if_neg h4, if_neg h5, if_neg h6,
          if_neg h7, if_neg h8, if_pos h9, hex4]
        simp only [List.cons_append, List.nil_append]
        rw [parseStringBody.eq_def]
        simp only [reduceIte, reduceCtorEq, hex4val_hexDig h9, if_neg hs1, if_neg hs2, ihx,
          char_ofNat_toNat]
        simp [char_ofNat_toNat]
      · have hval := char_toNat_valid c
        have hhi : 55296 + (c.toNat - 65536) / 1024 < 65536 := by omega
        have hmod : (c.toNat - 65536) % 1024 < 1024 := Nat.mod_lt _ (by omega)
        have hlo : 56320 + (c.toNat - 65536) % 1024 < 65536 := by omega
        have hsH : 55296 ≤ 55296 + (c.toNat - 65536) / 1024 ∧
            55296 + (c.toNat - 65536) / 1024 < 56320 := by omega
        have hsL : 56320 ≤ 56320 + (c.toNat - 65536) % 1024 ∧
            56320 + (c.toNat - 65536) % 1024 < 57344 := by omega
        have hcomb : 65536 + (55296 + (c.toNat - 65536) / 1024 - 55296) * 1024 +
            (56320 + (c.toNat - 65536) % 1024 - 56320) = c.toNat := by omega
        rw [escapeChar, if_neg h1, if_neg h2, if_neg h3, if_neg h4, if_neg h5, if_neg h6,
          if_neg h7, if_neg h8, if_neg h9, hex4, hex4]
        simp only [List.cons_append, List.nil_append, List.append_assoc]
        rw [parseStringBody.eq_def]
        simp only [reduceIte, reduceCtorEq, hex4val_hexDig hhi, hex4val_hexDig hlo,
          if_pos hsH, if_pos hsL, ihx, hcomb, char_ofNat_toNat]
        rw [if_neg (by decide : ¬ ('\\' = '"'))]

-- digit facts from earlier batch
theorem digitCh_isDigit {k : Nat} (h : k < 10) : isDigitCh (Char.ofNat (48 + k)) = true := by
  interval_cases k <;> decide

theorem natToChars_lt10 {n : Nat} (h : n < 10) :
    natToChars n = [Char.ofNat (48 + n)] := by
  rw [natToChars, natToCharsAux, if_pos h]

theorem natToCharsAux_acc : ∀ fuel n acc,
    natToCharsAux fuel n acc = natToCharsAux fuel n [] ++ acc := by
  intro fuel
  induction fuel with
  | zero => intro n acc; simp [natToCharsAux]
  | succ f ih =>
    intro n acc
    by_cases h : n < 10
    · simp [natToCharsAux, h]
    · rw [natToCharsAux, if_neg h, natToCharsAux, if_neg h, ih _ (_ :: acc),
        ih _ (_ :: ([] : List Char))]
      simp

theorem natToCharsAux_fuel : ∀ n fuel, n < fuel →
    natToCharsAux fuel n [] = natToChars n := by
  intro n
  induction n using Nat.strong_induction_on with
  | _ n ih =>
    intro fuel h
    match fuel, h with
    | f + 1, h =>
      by_cases h10 : n < 10
      · rw [natToCharsAux, if_pos h10, natToChars, natToCharsAux, if_pos h10]
      · have hdiv : n / 10 < n := Nat.div_lt_self (by omega) (by omega)
        rw [natToCharsAux, if_neg h10, natToCharsAux_acc,
          ih _ hdiv f (by omega)]
        conv_rhs => rw [natToChars, natToCharsAux, if_neg h10, natToCharsAux_acc,
          ih _ hdiv n hdiv]

theorem natToChars_ge10 {n : Nat} (h : 10 ≤ n) :
    natToChars n = natToChars (n / 10) ++ [Char.ofNat (48 + n % 10)] := by
  have hdiv : n / 10 < n := Nat.div_lt_self (by omega) (by omega)
  rw [natToChars, natToCharsAux, if_neg (by omega), natToCharsAux_acc,
    natToCharsAux_fuel (n / 10) n hdiv]

theorem natToChars_digits {n : Nat} : ∀ c ∈ natToChars n, isDigitCh c = true := by
  induction n using Nat.strong_induction_on with
  | _ n ih =>
    by_cases h10 : n < 10
    · rw [natToChars_lt10 h10]
      intro c hc
      simp at hc
      subst hc
      exact digitCh_isDigit h10
    · rw [natToChars_ge10 (by omega)]
      intro c hc
      rcases List.mem_append.1 hc with h | h
      · exact ih _ (Nat.div_lt_self (by omega) (by omega)) c h
      · simp at h
        subst h
        exact digitCh_isDigit (Nat.mod_lt _ (by omega))

theorem natToChars_ne_nil {n : Nat} : natToChars n ≠ [] := by
  by_cases h10 : n < 10
  · rw [natToChars_lt10 h10]; simp
  · rw [natToChars_ge10 (by omega)]; simp

-- new batch
theorem escapeChar_ne_nil (c : Char) : escapeChar c ≠ [] := by
  rw [escapeChar]
  repeat' split
  all_goals simp

theorem escapeChars_length_ge (s : List Char) : s.length ≤ (escapeChars s).length := by
  induction s with
  | nil => simp [escapeChars]
  | cons c cs ih =>
    rw [escapeChars]
    have := List.length_pos.2 (escapeChar_ne_nil c)
    simp only [List.length_append, List.length_cons]
    omega

theorem natToChars_cons (n : Nat) :
    ∃ c cs, natToChars n = c :: cs ∧ isDigitCh c = true := by
  cases h : natToChars n with
  | nil => exact absurd h natToChars_ne_nil
  | cons c cs =>
    exact ⟨c, cs, rfl, natToChars_digits c (h ▸ List.mem_cons_self c cs)⟩

theorem digit_toNat_range {c : Char} (h : isDigitCh c = true) :
    48 ≤ c.toNat ∧ c.toNat ≤ 57 := by
  rw [isDigitCh] at h
  simp only [Bool.and_eq_true, decide_eq_true_eq] at h
  exact ⟨h.1, h.2⟩

theorem digit_not_marker {c : Char} (h : isDigitCh c = true) :
    ¬ c = 'n' ∧ ¬ c = 't' ∧ ¬ c = 'f' ∧ ¬ c = '"' ∧ ¬ c = '[' ∧ ¬ c = '\x7b' ∧
      ¬ c = '-' ∧ ¬ c = ']' ∧ ¬ c = ',' ∧ ¬ c = '\x7d' := by
  have hr := digit_toNat_range h
  refine ⟨?_, ?_, ?_, ?_, ?_, ?_, ?_, ?_, ?_, ?_⟩ <;>
    · intro he
      subst he
      revert hr
      decide

theorem dumpsVal_head (isep ksep : List Char) (v : JVal) :
    ∃ c cs, dumpsVal isep ksep v = c :: cs ∧ ¬ c = ']' := by
  cases v with
  | jnull => exact ⟨'n', _, rfl, by decide⟩
  | jbool b =>
    cases b with
    | false => exact ⟨'f', _, rfl, by decide⟩
    | true => exact ⟨'t', _, rfl, by decide⟩
  | jint n =>
    cases n with
    | ofNat m =>
      obtain ⟨c, cs, hc, hd⟩ := natToChars_cons m
      exact ⟨c, cs, by rw [dumpsVal, intToChars, hc], (digit_not_marker hd).2.2.2.2.2.2.2.1⟩
    | negSucc m => exact ⟨'-', _, rfl, by decide⟩
  | jstr s => exact ⟨'"', _, rfl, by decide⟩
  | jarr xs => exact ⟨'[', _, rfl, by decide⟩
  | jobj kvs => exact ⟨'\x7b', _, rfl, by decide⟩

theorem sepJoin_cons (sep : List Char) (d : List Char) (ds : List (List Char)) :
    ∃ t, sepJoin sep (d :: ds) = d ++ t := by
  cases ds with
  | nil => exact ⟨[], by simp [sepJoin]⟩
  | cons d2 ds2 => exact ⟨sep ++ sepJoin sep (d2 :: ds2), by simp [sepJoin]⟩

theorem intToChars_ne_nil (n : Int) : intToChars n ≠ [] := by
  cases n with
  | ofNat m => exact natToChars_ne_nil
  | negSucc m => simp [intToChars]

theorem jsize_le_dumps (isep ksep : List Char) :
    ∀ v : JVal, JVal.jsize v ≤ (dumpsVal isep ksep v).length := by
  intro v
  induction v using JVal.inductionOn with
  | hnull => simp [dumpsVal, JVal.jsize]
  | hbool b => cases b <;> simp [dumpsVal, JVal.jsize]
  | hint n =>
    have := List.length_pos.2 (intToChars_ne_nil n)
    simp only [dumpsVal, JVal.jsize]
    omega
  | hstr s => simp [dumpsVal, JVal.jsize]
  | harr xs ih =>
    have hlist : JVal.jsizeList xs ≤ (sepJoin isep (dumpsList isep ksep xs)).length + 1 := by
      induction xs with
      | nil => simp [JVal.jsizeList, dumpsList, sepJoin]
      | cons x t iht =>
        have hx := ih x (List.mem_cons_self x t)
        cases t with
        | nil =>
          simp only [JVal.jsizeList, dumpsList, sepJoin]
          simp [JVal.jsizeList] at *
          omega
        | cons y t2 =>
          have ht := iht (fun z hz => ih z (List.mem_cons_of_mem x hz))
          simp only [JVal.jsizeList, dumpsList, sepJoin] at *
          simp only [List.length_append] at *
          omega
    simp only [dumpsVal, JVal.jsize, List.length_cons, List.length_append, List.length_cons]
    omega
  | hobj kvs ih =>
    have hlist : JVal.jsizeObj kvs ≤ (sepJoin isep (dumpsEntries isep ksep kvs)).length + 1 := by
      induction kvs with
      | nil => simp [JVal.jsizeObj, dumpsEntries, sepJoin]
      | cons kv t iht =>
        have hx := ih kv (List.mem_cons_self kv t)
        cases t with
        | nil =>
          simp only [JVal.jsizeObj, dumpsEntries, sepJoin]
          simp only [List.length_append, List.length_cons]
          omega
        | cons kv2 t2 =>
          have ht := iht (fun z hz => ih z (List.mem_cons_of_mem kv hz))
          simp only [JVal.jsizeObj, dumpsEntries, sepJoin] at *
          simp only [List.length_append, List.length_cons] at *
          omega
    simp only [dumpsVal, JVal.jsize, List.length_cons, List.length_append, List.length_cons]
    omega

theorem digitsToNat_append_one (ds : List Char) (d : Char) :
    digitsToNat (ds ++ [d]) = digitsToNat ds * 10 + (d.toNat - 48) := by
  rw [digitsToNat, List.foldl_append]
  rfl

theorem digitCh_toNat {k : Nat} (h : k < 10) : (Char.ofNat (48 + k)).toNat = 48 + k := by
  interval_cases k <;> decide

theorem digitsToNat_natToChars {n : Nat} : digitsToNat (natToChars n) = n := by
  induction n using Nat.strong_induction_on with
  | _ n ih =>
    by_cases h10 : n < 10
    · rw [natToChars_lt10 h10, digitsToNat]
      simp [digitCh_toNat h10]
    · rw [natToChars_ge10 (by omega), digitsToNat_append_one,
        ih _ (Nat.div_lt_self (by omega) (by omega)),
        digitCh_toNat (Nat.mod_lt _ (by omega))]
      omega

theorem takeWhile_append_all {p : Char → Bool} : ∀ (A rest : List Char),
    (∀ c ∈ A, p c = true) → (∀ c, rest.head? = some c → p c = false) →
    (A ++ rest).takeWhile p = A := by
  intro A
  induction A with
  | nil =>
    intro rest _ hr
    cases rest with
    | nil => rfl
    | cons r t =>
      have h := hr r rfl
      simp [List.takeWhile, h]
  | cons a A ih =>
    intro rest hA hr
    simp [List.takeWhile, hA a (by simp)]
    exact ih rest (fun c hc => hA c (by simp [hc])) hr

theorem parseDigits_natToChars (n : Nat) (rest : List Char)
    (hr : ∀ c, rest.head? = some c → isDigitCh c = false) :
    parseDigits (natToChars n ++ rest) = some (n, rest) := by
  rw [parseDigits]
  simp only [takeWhile_append_all (natToChars n) rest (fun c hc => natToChars_digits c hc) hr]
  rw [if_neg (by simp [List.isEmpty_iff, natToChars_ne_nil]), digitsToNat_natToChars,
    List.drop_left]

theorem sepJoin_dumpsList_two (isep ksep : List Char) (x y : JVal) (t : List JVal) :
    sepJoin isep (dumpsList isep ksep (x :: y :: t)) =
      dumpsVal isep ksep x ++ (isep ++ sepJoin isep (dumpsList isep ksep (y :: t))) := by
  rw [dumpsList, dumpsList, sepJoin, ← dumpsList, List.append_assoc]

theorem sepJoin_dumpsEntries_two (isep ksep : List Char) (kv kv2 : String × JVal)
    (t : List (String × JVal)) :
    sepJoin isep (dumpsEntries isep ksep (kv :: kv2 :: t)) =
      (('"' :: (escapeChars kv.1.data ++ ['"'])) ++ ksep ++ dumpsVal isep ksep kv.2) ++
        (isep ++ sepJoin isep (dumpsEntries isep ksep (kv2 :: t))) := by
  rw [dumpsEntries, dumpsEntries, sepJoin, ← dumpsEntries, List.append_assoc]

theorem parse_dumps (N : Nat) :
    (∀ v rest fuel, JVal.jsize v ≤ N → 2 * JVal.jsize v ≤ fuel →
      (∀ c, rest.head? = some c → isDigitCh c = false) →
      parseVal fuel (dumpsVal [','] [':'] v ++ rest) = some (v, rest))
    ∧ (∀ xs rest fuel, xs ≠ [] → JVal.jsizeList xs ≤ N → 2 * JVal.jsizeList xs + 1 ≤ fuel →
      parseElems fuel (sepJoin [','] (dumpsList [','] [':'] xs) ++ (']' :: rest)) =
        some (xs, rest))
    ∧ (∀ kvs rest fuel, kvs ≠ [] → JVal.jsizeObj kvs ≤ N → 2 * JVal.jsizeObj kvs + 1 ≤ fuel →
      parseMembers fuel (sepJoin [','] (dumpsEntries [','] [':'] kvs) ++ ('\x7d' :: rest)) =
        some (kvs, rest)) := by
  induction N with
  | zero =>
    refine ⟨fun v _ _ hv _ _ => ?_, fun xs _ _ hne hsz _ => ?_, fun kvs _ _ hne hsz _ => ?_⟩
    · have := JVal.jsize_pos v; omega
    · match xs, hne with
      | x :: t, _ =>
        have := JVal.jsize_pos x
        simp [JVal.jsizeList] at hsz
        omega
    · match kvs, hne with
      | kv :: t, _ =>
        have := JVal.jsize_pos kv.2
        simp [JVal.jsizeObj] at hsz
        omega
  | succ N ih =>
    obtain ⟨ih1, ih2, ih3⟩ := ih
    have P1 : ∀ v rest fuel, JVal.jsize v ≤ N + 1 → 2 * JVal.jsize v ≤ fuel →
        (∀ c, rest.head? = some c → isDigitCh c = false) →
        parseVal fuel (dumpsVal [','] [':'] v ++ rest) = some (v, rest) := by
      intro v rest fuel hN hfuel hrest
      have hpos := JVal.jsize_pos v
      cases fuel with
      | zero => omega
      | succ f =>
      cases v with
      | jnull =>
        rw [show dumpsVal [','] [':'] .jnull = 'n' :: 'u' :: 'l' :: 'l' :: [] from rfl]
        simp only [List.cons_append, List.nil_append]
        rw [parseVal]
        simp [stripPrefixCh]
      | jbool b =>
        cases b with
        | true =>
          rw [show dumpsVal [','] [':'] (.jbool true) = 't' :: 'r' :: 'u' :: 'e' :: [] from rfl]
          simp only [List.cons_append, List.nil_append]
          rw [parseVal]
          simp [stripPrefixCh]
        | false =>
          rw [show dumpsVal [','] [':'] (.jbool false) =
            'f' :: 'a' :: 'l' :: 's' :: 'e' :: [] from rfl]
          simp only [List.cons_append, List.nil_append]
          rw [parseVal]
          simp [stripPrefixCh]
      | jint n =>
        cases n with
        | ofNat m =>
          obtain ⟨c, cs, hc, hd⟩ := natToChars_cons m
          obtain ⟨m1, m2, m3, m4, m5, m6, m7, _, _, _⟩ := digit_not_marker hd
          have hback : c :: (cs ++ rest) = natToChars m ++ rest := by
            rw [hc, List.cons_append]
          rw [show dumpsVal [','] [':'] (.jint (Int.ofNat m)) = natToChars m from rfl, hc,
            List.cons_append, parseVal]
          simp only [if_neg m1, if_neg m2, if_neg m3, if_neg m4, if_neg m5, if_neg m6,
            if_neg m7]
          rw [hback, parseDigits_natToChars m rest hrest]
          rfl
        | negSucc m =>
          rw [show dumpsVal [','] [':'] (.jint (Int.negSucc m)) =
            '-' :: natToChars (m + 1) from rfl, List.cons_append, parseVal]
          rw [parseDigits_natToChars (m + 1) rest hrest]
          simp [Int.negSucc_eq]
      | jstr s =>
        obtain ⟨sd⟩ := s
        rw [show dumpsVal [','] [':'] (.jstr ⟨sd⟩) =
          '"' :: (escapeChars sd ++ ['"']) from rfl, List.cons_append, List.append_assoc,
          List.singleton_append, parseVal]
        have hlen : sd.length < (escapeChars sd ++ ('"' :: rest)).length := by
          have := escapeChars_length_ge sd
          simp only [List.length_append, List.length_cons]
          omega
        rw [parseStringBody_escapeChars sd _ rest hlen]
        simp
      | jarr xs =>
        cases xs with
        | nil =>
          rw [show dumpsVal [','] [':'] (.jarr []) = '[' :: ']' :: [] from rfl]
          simp only [List.cons_append, List.nil_append]
          rw [parseVal]
          simp
        | cons x t =>
          have hszl : JVal.jsizeList (x :: t) ≤ N := by
            simp only [JVal.jsize] at hN
            omega
          have hfl : 2 * JVal.jsizeList (x :: t) + 1 ≤ f := by
            simp only [JVal.jsize] at hfuel
            omega
          obtain ⟨tl, htl⟩ := sepJoin_cons [','] (dumpsVal [','] [':'] x)
            (dumpsList [','] [':'] t)
          obtain ⟨hc, hcs, hhead, hne⟩ := dumpsVal_head [','] [':'] x
          have key := ih2 (x :: t) rest f (by simp) hszl hfl
          rw [dumpsList, htl, hhead] at key
          rw [show dumpsVal [','] [':'] (.jarr (x :: t)) =
            '[' :: (sepJoin [','] (dumpsList [','] [':'] (x :: t)) ++ [']']) from rfl,
            dumpsList, htl, hhead]
          simp only [List.cons_append, List.append_assoc, List.singleton_append,
            List.nil_append] at key ⊢
          rw [parseVal]
          simp [hne, key]
      | jobj kvs =>
        cases kvs with
        | nil =>
          rw [show dumpsVal [','] [':'] (.jobj []) = '\x7b' :: '\x7d' :: [] from rfl]
          simp only [List.cons_append, List.nil_append]
          rw [parseVal]
          simp
        | cons kv t =>
          have hszl : JVal.jsizeObj (kv :: t) ≤ N := by
            simp only [JVal.jsize] at hN
            omega
          have hfl : 2 * JVal.jsizeObj (kv :: t) + 1 ≤ f := by
            simp only [JVal.jsize] at hfuel
            omega
          obtain ⟨tl, htl⟩ := sepJoin_cons [','] (('"' :: (escapeChars kv.1.data ++ ['"'])) ++
            [':'] ++ dumpsVal [','] [':'] kv.2) (dumpsEntries [','] [':'] t)
          have key := ih3 (kv :: t) rest f (by simp) hszl hfl
          rw [dumpsEntries, htl] at key
          rw [show dumpsVal [','] [':'] (.jobj (kv :: t)) =
            '\x7b' :: (sepJoin [','] (dumpsEntries [','] [':'] (kv :: t)) ++ ['\x7d'])
              from rfl,
            dumpsEntries, htl]
          simp only [List.cons_append, List.append_assoc, List.singleton_append,
            List.nil_append] at key ⊢
          rw [parseVal]
          simp [key]
    have P2 : ∀ xs rest fuel, xs ≠ [] → JVal.jsizeList xs ≤ N + 1 →
        2 * JVal.jsizeList xs + 1 ≤ fuel →
        parseElems fuel (sepJoin [','] (dumpsList [','] [':'] xs) ++ (']' :: rest)) =
          some (xs, rest) := by
      intro xs rest fuel hne hsz hfuel
      match xs, hne with
      | x :: t, _ =>
      have hposx := JVal.jsize_pos x
      cases fuel with
      | zero =>
        exfalso
        simp only [JVal.jsizeList] at hfuel
        omega
      | succ f =>
      cases t with
      | nil =>
        rw [show sepJoin [','] (dumpsList [','] [':'] [x]) = dumpsVal [','] [':'] x from rfl]
        have hx := P1 x (']' :: rest) f
          (by simp only [JVal.jsizeList] at hsz; omega)
          (by simp only [JVal.jsizeList] at hfuel; omega)
          (by intro c hc; simp at hc; subst hc; decide)
        rw [parseElems, hx]
        simp
      | cons y t2 =>
        have hposy := JVal.jsize_pos y
        have hsz2 : JVal.jsizeList (y :: t2) ≤ N := by
          simp only [JVal.jsizeList] at hsz ⊢
          omega
        have hf2 : 2 * JVal.jsizeList (y :: t2) + 1 ≤ f := by
          simp only [JVal.jsizeList] at hfuel ⊢
          omega
        rw [sepJoin_dumpsList_two, List.append_assoc]
        simp only [List.singleton_append, List.cons_append, List.nil_append]
        have hx := P1 x (',' :: (sepJoin [','] (dumpsList [','] [':'] (y :: t2)) ++
            (']' :: rest))) f
          (by simp only [JVal.jsizeList] at hsz; omega)
          (by simp only [JVal.jsizeList] at hfuel; omega)
          (by intro c hc; simp at hc; subst hc; decide)
        rw [parseElems, hx]
        simp [ih2 (y :: t2) rest f (by simp) hsz2 hf2]
    have P3 : ∀ kvs rest fuel, kvs ≠ [] → JVal.jsizeObj kvs ≤ N + 1 →
        2 * JVal.jsizeObj kvs + 1 ≤ fuel →
        parseMembers fuel (sepJoin [','] (dumpsEntries [','] [':'] kvs) ++ ('\x7d' :: rest)) =
          some (kvs, rest) := by
      intro kvs rest fuel hne hsz hfuel
      match kvs, hne with
      | kv :: t, _ =>
      obtain ⟨k, v⟩ := kv
      have hposv := JVal.jsize_pos v
      cases fuel with
      | zero =>
        exfalso
        simp only [JVal.jsizeObj] at hfuel
        omega
      | succ f =>
      cases t with
      | nil =>
        rw [show sepJoin [','] (dumpsEntries [','] [':'] [(k, v)]) =
          ('"' :: (escapeChars k.data ++ ['"'])) ++ [':'] ++ dumpsVal [','] [':'] v from rfl]
        simp only [List.append_assoc, List.cons_append, List.singleton_append, List.nil_append]
        rw [parseMembers]
        have hlen : k.data.length < (escapeChars k.data ++
            ('"' :: (':' :: (dumpsVal [','] [':'] v ++ ('\x7d' :: rest))))).length := by
          have := escapeChars_length_ge k.data
          simp only [List.length_append, List.length_cons]
          omega
        rw [parseStringBody_escapeChars k.data _ _ hlen]
        have hv := P1 v ('\x7d' :: rest) f
          (by simp only [JVal.jsizeObj] at hsz; omega)
          (by simp only [JVal.jsizeObj] at hfuel; omega)
          (by intro c hc; simp at hc; subst hc; decide)
        simp [hv]
      | cons kv2 t2 =>
        have hposv2 := JVal.jsize_pos kv2.2
        have hsz2 : JVal.jsizeObj (kv2 :: t2) ≤ N := by
          simp only [JVal.jsizeObj] at hsz ⊢
          omega
        have hf2 : 2 * JVal.jsizeObj (kv2 :: t2) + 1 ≤ f := by
          simp only [JVal.jsizeObj] at hfuel ⊢
          omega
        rw [sepJoin_dumpsEntries_two]
        simp only [List.append_assoc, List.cons_append, List.singleton_append, List.nil_append]
        rw [parseMembers]
        have hlen : k.data.length < (escapeChars k.data ++
            ('"' :: (':' :: (dumpsVal [','] [':'] v ++
              (',' :: (sepJoin [','] (dumpsEntries [','] [':'] (kv2 :: t2)) ++
                ('\x7d' :: rest))))))).length := by
          have := escapeChars_length_ge k.data
          simp only [List.length_append, List.length_cons]
          omega
        rw [parseStringBody_escapeChars k.data _ _ hlen]
        have hv := P1 v (',' :: (sepJoin [','] (dumpsEntries [','] [':'] (kv2 :: t2)) ++
            ('\x7d' :: rest))) f
          (by simp only [JVal.jsizeObj] at hsz; omega)
          (by simp only [JVal.jsizeObj] at hfuel; omega)
          (by intro c hc; simp at hc; subst hc; decide)
        simp [hv, ih3 (kv2 :: t2) rest f (by simp) hsz2 hf2]
    exact ⟨P1, P2, P3⟩

theorem parseJson_canonical_json (v : JVal) :
    parseJson (canonical_json v) = some (canonSort v) := by
  have hsz := jsize_le_dumps [','] [':'] (canonSort v)
  have h := (parse_dumps (JVal.jsize (canonSort v))).1 (canonSort v) []
    (2 * (dumpsVal [','] [':'] (canonSort v)).length + 2)
    le_rfl (by omega) (by intro c hc; simp at hc)
  rw [List.append_nil] at h
  rw [parseJson, show (canonical_json v).data = dumpsVal [','] [':'] (canonSort v) from rfl, h]

/-- Equality of JSON values as Python values: arrays pointwise, objects up to
permutation of their entry lists. -/
inductive JEquivP : JVal → JVal → Prop where
  | jnull : JEquivP .jnull .jnull
  | jbool (b : Bool) : JEquivP (.jbool b) (.jbool b)
  | jint (n : Int) : JEquivP (.jint n) (.jint n)
  | jstr (s : String) : JEquivP (.jstr s) (.jstr s)
  | arrNil : JEquivP (.jarr []) (.jarr [])
  | arrCons {x y : JVal} {xs ys : List JVal} : JEquivP x y →
      JEquivP (.jarr xs) (.jarr ys) → JEquivP (.jarr (x :: xs)) (.jarr (y :: ys))
  | objNil : JEquivP (.jobj []) (.jobj [])
  | objCons {k : String} {v₁ v₂ : JVal} {t₁ t₂ : List (String × JVal)} :
      JEquivP v₁ v₂ → JEquivP (.jobj t₁) (.jobj t₂) →
      JEquivP (.jobj ((k, v₁) :: t₁)) (.jobj ((k, v₂) :: t₂))
  | objPerm {l₁ l₂ l₃ : List (String × JVal)} : l₁.Perm l₂ →
      JEquivP (.jobj l₂) (.jobj l₃) → JEquivP (.jobj l₁) (.jobj l₃)

mutual

/-- Every object in the value has its entries in ascending key order. -/
def jsorted : JVal → Prop
  | .jarr xs => jsortedList xs
  | .jobj kvs => KeySorted kvs ∧ jsortedObj kvs
  | _ => True

def jsortedList : List JVal → Prop
  | [] => True
  | x :: xs => jsorted x ∧ jsortedList xs

def jsortedObj : List (String × JVal) → Prop
  | [] => True
  | kv :: kvs => jsorted kv.2 ∧ jsortedObj kvs

end

theorem jsortedObj_iff (t : List (String × JVal)) :
    jsortedObj t ↔ ∀ kv ∈ t, jsorted kv.2 := by
  induction t with
  | nil => simp [jsortedObj]
  | cons kv t ih => simp [jsortedObj, ih]

theorem jequiv_canonSort : ∀ v, JEquivP (canonSort v) v := by
  intro v
  induction v using JVal.inductionOn with
  | hnull => exact .jnull
  | hbool b => exact .jbool b
  | hint n => exact .jint n
  | hstr s => exact .jstr s
  | harr xs ih =>
    rw [show canonSort (.jarr xs) = .jarr (canonSortList xs) from rfl, canonSortList_eq]
    have key : ∀ t : List JVal, (∀ x ∈ t, JEquivP (canonSort x) x) →
        JEquivP (.jarr (t.map canonSort)) (.jarr t) := by
      intro t
      induction t with
      | nil => intro _; exact .arrNil
      | cons x t2 iht =>
        intro h
        simp only [List.map_cons]
        exact .arrCons (h x (by simp)) (iht fun z hz => h z (by simp [hz]))
    exact key xs ih
  | hobj kvs ih =>
    rw [show canonSort (.jobj kvs) = .jobj (sortByKey (canonSortObj kvs)) from rfl]
    refine .objPerm ((sortByKey_perm _).trans (by rw [canonSortObj_eq])) ?_
    have key : ∀ t : List (String × JVal), (∀ kv ∈ t, JEquivP (canonSort kv.2) kv.2) →
        JEquivP (.jobj (t.map fun kv => (kv.1, canonSort kv.2))) (.jobj t) := by
      intro t
      induction t with
      | nil => intro _; exact .objNil
      | cons kv t2 iht =>
        intro h
        simp only [List.map_cons]
        exact .objCons (h kv (by simp)) (iht fun z hz => h z (by simp [hz]))
    exact key kvs ih

theorem jsorted_canonSort : ∀ v, jsorted (canonSort v) := by
  intro v
  induction v using JVal.inductionOn with
  | hnull => trivial
  | hbool b => trivial
  | hint n => trivial
  | hstr s => trivial
  | harr xs ih =>
    rw [show canonSort (.jarr xs) = .jarr (canonSortList xs) from rfl]
    rw [show jsorted (.jarr (canonSortList xs)) = jsortedList (canonSortList xs) from rfl]
    have key : ∀ t : List JVal, (∀ x ∈ t, jsorted (canonSort x)) →
        jsortedList (canonSortList t) := by
      intro t
      induction t with
      | nil => intro _; trivial
      | cons x t2 iht =>
        intro h
        rw [canonSortList]
        exact ⟨h x (by simp), iht fun z hz => h z (by simp [hz])⟩
    exact key xs ih
  | hobj kvs ih =>
    rw [show canonSort (.jobj kvs) = .jobj (sortByKey (canonSortObj kvs)) from rfl]
    rw [show jsorted (.jobj (sortByKey (canonSortObj kvs))) =
      (KeySorted (sortByKey (canonSortObj kvs)) ∧ jsortedObj (sortByKey (canonSortObj kvs)))
        from rfl]
    refine ⟨sortByKey_keySorted _, (jsortedObj_iff _).2 ?_⟩
    intro kv hkv
    have hmem : kv ∈ canonSortObj kvs := ((sortByKey_perm _).mem_iff).1 hkv
    rw [canonSortObj_eq] at hmem
    obtain ⟨kv0, hkv0, rfl⟩ := List.mem_map.1 hmem
    exact ih kv0 hkv0

/-- C7: `canonical_json` is a left inverse of JSON parsing up to value
equality.  For every JSON value `v`, parsing the string `canonical_json v`
succeeds and yields `canonSort v`; that value equals `v` as a Python value
(objects compared up to permutation of their entries), and every object in
it has its keys in ascending sorted order — `canonical_json` emits sorted
keys, and by construction of the `","`/`":"` separators it contains no
extraneous whitespace. -/
theorem c7_canonical_json_left_inverse (v : JVal) :
    parseJson (canonical_json v) = some (canonSort v) ∧
      JEquivP (canonSort v) v ∧ jsorted (canonSort v) :=
  ⟨parseJson_canonical_json v, jequiv_canonSort v, jsorted_canonSort v⟩

/-! ## DAG scheduler correctness

Invariant development for `_execute_plan`: in-degrees track unexecuted
dependencies, the frontier always holds exactly the unexecuted steps whose
dependencies have all executed, each non-empty level grows the executed list,
and a stalled loop yields a dependency cycle by pigeonhole. -/

theorem count_eq_filter_len (l : List String) (n : String) :
    l.count n = (l.filter fun d => d = n).length := by
  induction l with
  | nil => rfl
  | cons c t ih =>
    by_cases h : c = n
    · subst h
      simp [List.count_cons, List.filter, ih]
    · simp [List.count_cons, List.filter, ih, h]

theorem count_const_map (c x : String) (L : List String) :
    ((L.map fun _ => c).count x) = if x = c then L.length else 0 := by
  induction L with
  | nil => simp
  | cons a t ih =>
    by_cases h : x = c
    · subst h
      simp [List.count_cons, ih]
    · simp [List.count_cons, ih, h, Ne.symm h, List.count_replicate]

theorem mem_dependentsOf {plan : List PlanStep} {n x : String}
    (h : x ∈ dependentsOf plan n) : x ∈ planIds plan := by
  rw [dependentsOf] at h
  simp only [List.mem_flatMap, List.mem_map, List.mem_filter] at h
  obtain ⟨s, hs, d, _, rfl⟩ := h
  exact List.mem_map.2 ⟨s, hs, rfl⟩

theorem count_dependentsOf {plan : List PlanStep} (hnd : (planIds plan).Nodup)
    (n x : String) :
    (dependentsOf plan n).count x = (depList plan x).count n := by
  induction plan with
  | nil => simp [dependentsOf, depList]
  | cons s plan ih =>
    have hnd' : (planIds plan).Nodup := by
      rw [planIds] at hnd
      simp at hnd
      exact hnd.2
    have hs_notin : s.id ∉ planIds plan := by
      rw [planIds] at hnd
      simp at hnd
      intro hc
      rw [planIds, List.mem_map] at hc
      obtain ⟨t, ht, hid⟩ := hc
      exact hnd.1 t ht hid
    rw [show dependentsOf (s :: plan) n =
      ((s.deps.filter fun d => d = n).map fun _ => s.id) ++ dependentsOf plan n from by
        rw [dependentsOf, dependentsOf]; simp [List.flatMap_cons]]
    rw [List.count_append, count_const_map]
    by_cases hx : x = s.id
    · have h2 : (dependentsOf plan n).count x = 0 := by
        rw [List.count_eq_zero]
        intro hc
        exact hs_notin (hx ▸ mem_dependentsOf hc)
      have h3 : depList (s :: plan) x = s.deps := by
        rw [depList, List.find?_cons_of_pos]
        · simp
        · simp [hx]
      rw [h2, h3, if_pos hx, count_eq_filter_len]
      omega
    · have h3 : depList (s :: plan) x = depList plan x := by
        rw [depList, depList, List.find?_cons_of_neg]
        simp only [decide_eq_true_eq]
        exact fun h => hx h.symm
      rw [h3, ih hnd', if_neg hx]
      omega

theorem foldl_decInsert : ∀ (L : List String) (st : DagState) (acc : List String),
    ∃ Δ, L.foldl decInsert (st, acc) =
      ({ inDeg := fun x => st.inDeg x - (L.count x : Int), executed := st.executed }, acc ++ Δ) ∧
      Δ.Nodup ∧
      ∀ x, x ∈ Δ ↔ x ∉ st.executed ∧ 0 < st.inDeg x ∧ st.inDeg x ≤ (L.count x : Int) := by
  intro L
  induction L with
  | nil =>
    intro st acc
    refine ⟨[], ?_, List.nodup_nil, ?_⟩
    · have h : (fun x => st.inDeg x - ((([] : List String).count x : Nat) : Int)) = st.inDeg := by
        funext x
        simp
      rw [List.foldl_nil, h, List.append_nil]
    · intro x
      simp only [List.not_mem_nil, false_iff]
      rintro ⟨_, h1, h2⟩
      simp at h2
      omega
  | cons d tail ih =>
    intro st acc
    have hbr : (st.executed.contains d = true) ↔ d ∈ st.executed := by simp
    by_cases hpush : st.inDeg d - 1 = 0 ∧ ¬ d ∈ st.executed
    · have hstep : List.foldl decInsert (st, acc) (d :: tail) =
          List.foldl decInsert
            ({ inDeg := fun x => if x = d then st.inDeg d - 1 else st.inDeg x,
               executed := st.executed }, acc ++ [d]) tail := by
        rw [List.foldl_cons, decInsert]
        rw [if_pos (by exact ⟨hpush.1, by rw [hbr]; exact hpush.2⟩)]
      obtain ⟨Δ', heq, hnd, hiff⟩ := ih
        { inDeg := fun x => if x = d then st.inDeg d - 1 else st.inDeg x,
          executed := st.executed } (acc ++ [d])
      refine ⟨d :: Δ', ?_, ?_, ?_⟩
      · rw [hstep, heq]
        refine congrArg₂ Prod.mk ?_ (by simp)
        refine congrArg₂ DagState.mk ?_ rfl
        funext x
        by_cases hx : x = d
        · subst hx
          simp [List.count_cons]
          omega
        · simp [hx, List.count_cons, Ne.symm hx]
      · refine List.nodup_cons.2 ⟨?_, hnd⟩
        intro hc
        have := (hiff d).1 hc
        simp at this
        omega
      · intro x
        by_cases hx : x = d
        · subst hx
          simp only [List.mem_cons, true_or, true_iff]
          have hcnt : (0 : Int) ≤ (tail.count x : Int) := by positivity
          exact ⟨hpush.2, by omega, by simp [List.count_cons]; omega⟩
        · have h2 := hiff x
          simp only [hx, if_neg hx] at h2
          simp only [List.mem_cons, hx, false_or, h2]
          rw [List.count_cons]
          simp [Ne.symm hx]
    · have hstep : List.foldl decInsert (st, acc) (d :: tail) =
          List.foldl decInsert
            ({ inDeg := fun x => if x = d then st.inDeg d - 1 else st.inDeg x,
               executed := st.executed }, acc) tail := by
        rw [List.foldl_cons, decInsert]
        rw [if_neg (by rw [hbr]; exact hpush)]
      obtain ⟨Δ', heq, hnd, hiff⟩ := ih
        { inDeg := fun x => if x = d then st.inDeg d - 1 else st.inDeg x,
          executed := st.executed } acc
      refine ⟨Δ', ?_, hnd, ?_⟩
      · rw [hstep, heq]
        refine congrArg₂ Prod.mk ?_ rfl
        refine congrArg₂ DagState.mk ?_ rfl
        funext x
        by_cases hx : x = d
        · subst hx
          simp [List.count_cons]
          omega
        · simp [hx, List.count_cons, Ne.symm hx]
      · intro x
        by_cases hx : x = d
        · subst hx
          have h2 := hiff x
          simp only [if_pos rfl] at h2
          rw [h2, List.count_cons]
          simp only [beq_self_eq_true, if_true]
          constructor
          · rintro ⟨ha, hb, hc⟩
            refine ⟨ha, by omega, ?_⟩
            push_cast
            omega
          · rintro ⟨ha, hb, hc⟩
            have hne1 : ¬ (st.inDeg x - 1 = 0) := fun h => hpush ⟨h, ha⟩
            refine ⟨ha, by omega, ?_⟩
            push_cast at hc ⊢
            omega
        · have h2 := hiff x
          simp only [if_neg hx] at h2
          rw [h2, List.count_cons]
          simp [Ne.symm hx]

/-- Invariant: in-degrees count not-yet-executed dependencies. -/
def InDegInv (plan : List PlanStep) (E : List String) (st : DagState) : Prop :=
  ∀ x, st.inDeg x = (((depList plan x).filter fun d => ¬ d ∈ E).length : Int)

/-- All dependencies of `n` are in `E`. -/
def AllDeps (plan : List PlanStep) (n : String) (E : List String) : Prop :=
  ∀ d ∈ depList plan n, d ∈ E

theorem filter_notmem_append (l M : List String) (n : String) (hn : n ∉ M) :
    (l.filter fun d => ¬ d ∈ M).length =
      (l.filter fun d => ¬ d ∈ M ++ [n]).length + l.count n := by
  induction l with
  | nil => simp
  | cons c t ih =>
    rw [List.count_cons, List.filter_cons, List.filter_cons]
    by_cases hc : c = n
    · subst hc
      rw [if_pos (show (decide (¬ c ∈ M)) = true by simp [hn]),
        if_neg (show ¬ (decide (¬ c ∈ M ++ [c])) = true by simp)]
      rw [List.length_cons]
      have : (if c == c then 1 else 0) = 1 := by simp
      omega
    · have : (if c == n then 1 else 0) = 0 := by simp [hc]
      by_cases hm : c ∈ M
      · rw [if_neg (show ¬ (decide (¬ c ∈ M)) = true by simp [hm]),
          if_neg (show ¬ (decide (¬ c ∈ M ++ [n])) = true by simp [hm])]
        omega
      · rw [if_pos (show (decide (¬ c ∈ M)) = true by simp [hm]),
          if_pos (show (decide (¬ c ∈ M ++ [n])) = true by simp [hm, hc])]
        rw [List.length_cons, List.length_cons]
        omega

theorem filter_notmem_eq_zero_iff (l M : List String) :
    ((l.filter fun d => ¬ d ∈ M).length = 0) ↔ ∀ d ∈ l, d ∈ M := by
  rw [List.length_eq_zero, List.filter_eq_nil_iff]
  simp

theorem mem_planIds_of_depList_ne {plan : List PlanStep} {x : String}
    (h : depList plan x ≠ []) : x ∈ planIds plan := by
  rw [depList] at h
  cases hf : plan.find? fun s => s.id = x with
  | none => rw [hf] at h; simp at h
  | some s =>
    have hmem := List.mem_of_find?_eq_some hf
    have hid := List.find?_some hf
    simp at hid
    exact hid ▸ List.mem_map.2 ⟨s, hmem, rfl⟩

theorem count_pos_mem_planIds {plan : List PlanStep} {x n : String}
    (h : 0 < (depList plan x).count n) : x ∈ planIds plan := by
  refine mem_planIds_of_depList_ne fun hc => ?_
  rw [hc] at h
  simp at h

theorem execNode_spec (plan : List PlanStep) (st : DagState) (acc : List String) (n : String) :
    ∃ Δ, execNode plan (st, acc) n =
      ({ inDeg := fun x => st.inDeg x - ((dependentsOf plan n).count x : Int),
         executed := st.executed ++ [n] }, acc ++ Δ) ∧
      Δ.Nodup ∧
      ∀ x, x ∈ Δ ↔ x ∉ st.executed ++ [n] ∧ 0 < st.inDeg x ∧
        st.inDeg x ≤ ((dependentsOf plan n).count x : Int) := by
  obtain ⟨Δ, heq, hnd', hiff⟩ := foldl_decInsert (dependentsOf plan n)
    { inDeg := st.inDeg, executed := st.executed ++ [n] } acc
  exact ⟨Δ, heq, hnd', hiff⟩

theorem allDeps_mono {plan : List PlanStep} {x : String} {M M' : List String}
    (h : M ⊆ M') (ha : AllDeps plan x M) : AllDeps plan x M' :=
  fun d hd => h (ha d hd)

theorem execLevel_fold (plan : List PlanStep) (hnd : (planIds plan).Nodup)
    (E₀ ready : List String)
    (hrnd : ready.Nodup)
    (hrdisj : ∀ x ∈ ready, x ∉ E₀)
    (hrinv : ∀ x ∈ ready, AllDeps plan x E₀) :
    ∀ (R P acc : List String) (st : DagState),
      ready = P ++ R →
      st.executed = E₀ ++ P →
      InDegInv plan (E₀ ++ P) st →
      (∀ x, x ∈ acc ↔ x ∈ planIds plan ∧ x ∉ E₀ ∧ x ∉ ready ∧
        AllDeps plan x (E₀ ++ P) ∧ ¬ AllDeps plan x E₀) →
      acc.Nodup →
      ∃ st' acc', R.foldl (execNode plan) (st, acc) = (st', acc') ∧
        st'.executed = E₀ ++ ready ∧
        InDegInv plan (E₀ ++ ready) st' ∧
        (∀ x, x ∈ acc' ↔ x ∈ planIds plan ∧ x ∉ E₀ ∧ x ∉ ready ∧
          AllDeps plan x (E₀ ++ ready) ∧ ¬ AllDeps plan x E₀) ∧
        acc'.Nodup := by
  intro R
  induction R with
  | nil =>
    intro P acc st hPR hex hindeg hacc haccnd
    rw [List.append_nil] at hPR
    subst hPR
    exact ⟨st, acc, rfl, hex, hindeg, hacc, haccnd⟩
  | cons n R' ih =>
    intro P acc st hPR hex hindeg hacc haccnd
    have hnr : n ∈ ready := by rw [hPR]; simp
    have hnP : n ∉ P := by
      rw [hPR] at hrnd
      have hdisj := (List.nodup_append.1 hrnd).2.2
      intro hc
      exact hdisj hc (by simp)
    have hnE₀ : n ∉ E₀ := hrdisj n hnr
    have hnEP : n ∉ E₀ ++ P := by
      simp only [List.mem_append]
      rintro (h | h)
      · exact hnE₀ h
      · exact hnP h
    obtain ⟨Δ, heq, hΔnd, hΔiff⟩ := execNode_spec plan st acc n
    have hΔchar : ∀ x, x ∈ Δ ↔ x ∈ planIds plan ∧ x ∉ E₀ ∧ x ∉ ready ∧
        AllDeps plan x (E₀ ++ (P ++ [n])) ∧ ¬ AllDeps plan x (E₀ ++ P) := by
      intro x
      rw [hΔiff x]
      have hcnt : (dependentsOf plan n).count x = (depList plan x).count n :=
        count_dependentsOf hnd n x
      have hfl := hindeg x
      have hsplit := filter_notmem_append (depList plan x) (E₀ ++ P) n hnEP
      constructor
      · rintro ⟨hx1, hx2, hx3⟩
        rw [hcnt] at hx3
        rw [hfl] at hx2 hx3
        have hcpos : 0 < (depList plan x).count n := by
          by_contra hc
          push_neg at hc
          interval_cases h : (depList plan x).count n
          all_goals omega
        have hfl0 : ((depList plan x).filter fun d => ¬ d ∈ (E₀ ++ P) ++ [n]).length = 0 := by
          omega
        have hids : x ∈ planIds plan := count_pos_mem_planIds hcpos
        have hnall : ¬ AllDeps plan x (E₀ ++ P) := by
          rw [AllDeps, ← filter_notmem_eq_zero_iff]
          omega
        have hall : AllDeps plan x (E₀ ++ (P ++ [n])) := by
          rw [AllDeps]
          have := (filter_notmem_eq_zero_iff (depList plan x) ((E₀ ++ P) ++ [n])).1 hfl0
          intro d hd
          have h2 := this d hd
          simpa [List.mem_append] using h2
        refine ⟨hids, ?_, ?_, hall, hnall⟩
        · rw [hex] at hx1
          simp only [List.mem_append] at hx1
          push_neg at hx1
          exact hx1.1.1
        · intro hc
          exact hnall (allDeps_mono (by intro a ha; simp [ha]) (hrinv x hc))
      · rintro ⟨hx1, hx2, hx3, hx4, hx5⟩
        have hnall' : ¬ ((depList plan x).filter fun d => ¬ d ∈ E₀ ++ P).length = 0 := by
          rw [filter_notmem_eq_zero_iff]
          exact hx5
        have hall0 : ((depList plan x).filter fun d => ¬ d ∈ (E₀ ++ P) ++ [n]).length = 0 := by
          rw [filter_notmem_eq_zero_iff]
          intro d hd
          have := hx4 d hd
          simpa [List.mem_append] using this
        refine ⟨?_, ?_, ?_⟩
        · rw [hex]
          simp only [List.mem_append, List.mem_singleton]
          rintro ((h | h) | h)
          · exact hx2 h
          · exact hx3 (by rw [hPR]; simp [h])
          · exact hx3 (h ▸ hnr)
        · rw [hfl]
          omega
        · rw [hcnt, hfl]
          omega
    have hex₁ : (st.executed ++ [n]) = E₀ ++ (P ++ [n]) := by
      rw [hex, List.append_assoc]
    have hindeg₁ : InDegInv plan (E₀ ++ (P ++ [n]))
        { inDeg := fun x => st.inDeg x - ((dependentsOf plan n).count x : Int),
          executed := st.executed ++ [n] } := by
      intro x
      have hcnt : (dependentsOf plan n).count x = (depList plan x).count n :=
        count_dependentsOf hnd n x
      have hfl := hindeg x
      have hsplit := filter_notmem_append (depList plan x) (E₀ ++ P) n hnEP
      have hpred : ((depList plan x).filter fun d => ¬ d ∈ E₀ ++ (P ++ [n])).length =
          ((depList plan x).filter fun d => ¬ d ∈ (E₀ ++ P) ++ [n]).length := by
        congr 1
        apply List.filter_congr
        intro d _
        simp [List.mem_append]
      simp only []
      rw [hcnt, hfl, hpred]
      omega
    have hacc₁ : ∀ x, x ∈ acc ++ Δ ↔ x ∈ planIds plan ∧ x ∉ E₀ ∧ x ∉ ready ∧
        AllDeps plan x (E₀ ++ (P ++ [n])) ∧ ¬ AllDeps plan x E₀ := by
      intro x
      rw [List.mem_append, hacc x, hΔchar x]
      constructor
      · rintro (⟨h1, h2, h3, h4, h5⟩ | ⟨h1, h2, h3, h4, h5⟩)
        · exact ⟨h1, h2, h3, allDeps_mono (by intro a ha; simp at ha ⊢; tauto) h4, h5⟩
        · refine ⟨h1, h2, h3, h4, fun hc => h5 (allDeps_mono (by intro a ha; simp [ha]) hc)⟩
      · rintro ⟨h1, h2, h3, h4, h5⟩
        by_cases hP : AllDeps plan x (E₀ ++ P)
        · exact Or.inl ⟨h1, h2, h3, hP, h5⟩
        · exact Or.inr ⟨h1, h2, h3, h4, hP⟩
    have haccnd₁ : (acc ++ Δ).Nodup := by
      rw [List.nodup_append]
      refine ⟨haccnd, hΔnd, ?_⟩
      intro a ha hc
      have h1 := (hacc a).1 ha
      have h2 := (hΔchar a).1 hc
      exact h2.2.2.2.2 h1.2.2.2.1
    rw [List.foldl_cons, heq]
    exact ih (P ++ [n]) (acc ++ Δ)
      { inDeg := fun x => st.inDeg x - ((dependentsOf plan n).count x : Int),
        executed := st.executed ++ [n] }
      (by rw [hPR, List.append_assoc]; rfl)
      hex₁ hindeg₁ hacc₁ haccnd₁

theorem execLevel_spec (plan : List PlanStep) (hnd : (planIds plan).Nodup)
    (E ready : List String) (st : DagState)
    (hrnd : ready.Nodup)
    (hrdisj : ∀ x ∈ ready, x ∉ E)
    (hrinv : ∀ x ∈ ready, AllDeps plan x E)
    (hex : st.executed = E)
    (hindeg : InDegInv plan E st) :
    ∃ st' acc', execLevel plan st ready = (st', acc') ∧
      st'.executed = E ++ ready ∧
      InDegInv plan (E ++ ready) st' ∧
      (∀ x, x ∈ acc' ↔ x ∈ planIds plan ∧ x ∉ E ∧ x ∉ ready ∧
        AllDeps plan x (E ++ ready) ∧ ¬ AllDeps plan x E) ∧
      acc'.Nodup := by
  have h := execLevel_fold plan hnd E ready hrnd hrdisj hrinv ready [] [] st
    (by simp) (by simpa using hex) (by simpa using hindeg)
    (by
      intro x
      simp only [List.not_mem_nil, false_iff, List.append_nil]
      rintro ⟨_, _, _, h4, h5⟩
      exact h5 h4)
    List.nodup_nil
  rw [execLevel]
  exact h

theorem nodup_len_le {A B : List String} (hnd : A.Nodup) (hsub : ∀ x ∈ A, x ∈ B) :
    A.length ≤ B.length :=
  (List.subperm_of_subset hnd hsub).length_le

theorem dagLoop_spec (plan : List PlanStep) (hnd : (planIds plan).Nodup) :
    ∀ (fuel : Nat) (st : DagState) (ready : List String),
      st.executed.Nodup →
      (∀ x ∈ st.executed, x ∈ planIds plan) →
      ready.Nodup →
      (∀ x ∈ ready, x ∈ planIds plan) →
      (∀ x ∈ ready, x ∉ st.executed) →
      InDegInv plan st.executed st →
      (∀ x ∈ planIds plan, (x ∈ ready ↔ x ∉ st.executed ∧ AllDeps plan x st.executed)) →
      TopoOrdered plan st.executed →
      (planIds plan).length < fuel + st.executed.length →
      (dagLoop plan fuel st ready).Nodup ∧
      (∀ x ∈ dagLoop plan fuel st ready, x ∈ planIds plan) ∧
      TopoOrdered plan (dagLoop plan fuel st ready) ∧
      (∀ n ∈ planIds plan, n ∉ dagLoop plan fuel st ready →
        ¬ AllDeps plan n (dagLoop plan fuel st ready)) := by
  intro fuel
  induction fuel with
  | zero =>
    intro st ready hend hesub _ _ _ _ _ _ hfuel
    exfalso
    have := nodup_len_le hend hesub
    omega
  | succ f ih =>
    intro st ready hend hesub hrnd hrsub hrdisj hindeg hrinv htopo hfuel
    rw [dagLoop]
    by_cases hemp : ready = []
    · rw [if_pos hemp]
      refine ⟨hend, hesub, htopo, ?_⟩
      intro n hn hnot hall
      have := (hrinv n hn).2 ⟨hnot, hall⟩
      rw [hemp] at this
      simp at this
    · rw [if_neg hemp]
      obtain ⟨st', acc', heq, hex', hindeg', hacc', haccnd'⟩ :=
        execLevel_spec plan hnd st.executed ready st hrnd hrdisj
          (fun x hx => ((hrinv x (hrsub x hx)).1 hx).2) rfl hindeg
      rw [heq]
      have hrne : 0 < ready.length := by
        cases ready with
        | nil => exact absurd rfl hemp
        | cons a t => simp
      have hend' : st'.executed.Nodup := by
        rw [hex', List.nodup_append]
        exact ⟨hend, hrnd, fun a ha hc => hrdisj a hc ha⟩
      have hesub' : ∀ x ∈ st'.executed, x ∈ planIds plan := by
        rw [hex']
        intro x hx
        rcases List.mem_append.1 hx with h | h
        · exact hesub x h
        · exact hrsub x h
      have haccsub' : ∀ x ∈ acc', x ∈ planIds plan := fun x hx => ((hacc' x).1 hx).1
      have haccdisj' : ∀ x ∈ acc', x ∉ st'.executed := by
        intro x hx
        have h := (hacc' x).1 hx
        rw [hex']
        simp only [List.mem_append]
        rintro (hc | hc)
        · exact h.2.1 hc
        · exact h.2.2.1 hc
      have hindeg'' : InDegInv plan st'.executed st' := by rwa [hex']
      have hrinv' : ∀ x ∈ planIds plan,
          (x ∈ acc' ↔ x ∉ st'.executed ∧ AllDeps plan x st'.executed) := by
        intro x hx
        rw [hex', hacc' x]
        constructor
        · rintro ⟨_, h2, h3, h4, _⟩
          exact ⟨by simp [h2, h3], h4⟩
        · rintro ⟨h1, h2⟩
          simp only [List.mem_append] at h1
          push_neg at h1
          refine ⟨hx, h1.1, h1.2, h2, fun hall => ?_⟩
          have := (hrinv x hx).2 ⟨h1.1, hall⟩
          exact h1.2 this
      have htopo' : TopoOrdered plan st'.executed := by
        rw [hex']
        intro i hi d hd
        by_cases hiE : i < st.executed.length
        · have hget : (st.executed ++ ready).get ⟨i, hi⟩ = st.executed.get ⟨i, hiE⟩ := by
            simp only [List.get_eq_getElem]
            exact List.getElem_append_left hiE
          rw [hget] at hd
          have h1 := htopo i hiE d hd
          rw [List.take_append_eq_append_take]
          exact List.mem_append_left _ (by exact h1)
        · push_neg at hiE
          have hget : (st.executed ++ ready).get ⟨i, hi⟩ =
              ready.get ⟨i - st.executed.length, by
                rw [List.length_append] at hi; omega⟩ := by
            simp only [List.get_eq_getElem]
            exact List.getElem_append_right hiE
          have hmem : (st.executed ++ ready).get ⟨i, hi⟩ ∈ ready := by
            rw [hget]; exact List.get_mem _ _ _
          have hAD := ((hrinv _ (hrsub _ hmem)).1 hmem).2
          have hdE : d ∈ st.executed := hAD d hd
          rw [List.take_append_eq_append_take, List.take_of_length_le hiE]
          exact List.mem_append_left _ hdE
      exact ih st' acc' hend' hesub' haccnd' haccsub' haccdisj' hindeg'' hrinv' htopo'
        (by rw [hex', List.length_append]; omega)

theorem depList_eq_of_mem {plan : List PlanStep} (hnd : (planIds plan).Nodup)
    {s : PlanStep} (hs : s ∈ plan) : depList plan s.id = s.deps := by
  induction plan with
  | nil => cases hs
  | cons t plan ih =>
    have hnd' : (planIds plan).Nodup := by
      rw [planIds] at hnd
      simp at hnd
      exact hnd.2
    rcases List.mem_cons.1 hs with h | h
    · subst h
      rw [depList, List.find?_cons_of_pos _ (by simp)]
      simp
    · have hne : ¬ t.id = s.id := by
        rw [planIds] at hnd
        simp at hnd
        intro hc
        exact hnd.1 s h hc.symm
      rw [depList, List.find?_cons_of_neg _ (by simp [hne])]
      rw [← depList, ih hnd' h]

theorem depList_subset_of_closed {plan : List PlanStep} (hcl : PlanClosed plan) (n : String) :
    ∀ d ∈ depList plan n, d ∈ planIds plan := by
  intro d hd
  rw [depList] at hd
  cases hf : plan.find? fun s => s.id = n with
  | none => rw [hf] at hd; simp at hd
  | some s =>
    rw [hf] at hd
    simp at hd
    exact hcl s (List.mem_of_find?_eq_some hf) d hd

theorem indexOf_dep_lt {plan : List PlanStep} {F : List String}
    (hT : TopoOrdered plan F) {a b : String} (ha : a ∈ F) (hb : b ∈ depList plan a) :
    F.indexOf b < F.indexOf a := by
  have hilen : F.indexOf a < F.length := List.indexOf_lt_length.mpr ha
  have hget : F.get ⟨F.indexOf a, hilen⟩ = a := List.indexOf_get hilen
  have htake := hT (F.indexOf a) hilen b (by rw [hget]; exact hb)
  have h1 : F.indexOf b = (F.take (F.indexOf a)).indexOf b := by
    conv_lhs => rw [← List.take_append_drop (F.indexOf a) F]
    rw [List.indexOf_append_of_mem htake]
  have h2 : (F.take (F.indexOf a)).indexOf b < (F.take (F.indexOf a)).length :=
    List.indexOf_lt_length.mpr htake
  have h3 : (F.take (F.indexOf a)).length ≤ F.indexOf a := by
    rw [List.length_take]
    omega
  omega

theorem chain_indexOf_le {plan : List PlanStep} {F : List String}
    (hT : TopoOrdered plan F) :
    ∀ (l : List String) (a b : String), List.Chain' (fun a b => b ∈ depList plan a) l →
      (∀ x ∈ l, x ∈ F) → l.head? = some a → l.getLast? = some b →
      F.indexOf b ≤ F.indexOf a := by
  intro l
  induction l with
  | nil => intro a b _ _ hh; simp at hh
  | cons x t ih =>
    intro a b hch hsub hh hl
    simp at hh
    subst hh
    cases t with
    | nil =>
      simp at hl
      subst hl
      exact le_refl _
    | cons y t2 =>
      have hxy : y ∈ depList plan x := (List.chain'_cons.1 hch).1
      have hch2 : List.Chain' (fun a b => b ∈ depList plan a) (y :: t2) :=
        (List.chain'_cons.1 hch).2
      have hl2 : (y :: t2).getLast? = some b := by
        rw [← hl, List.getLast?_cons_cons]
      have h1 := ih y b hch2 (fun z hz => hsub z (by simp [hz])) (by simp) hl2
      have h2 : F.indexOf y < F.indexOf x :=
        indexOf_dep_lt hT (hsub x (by simp)) hxy
      omega

theorem no_cycle_executed {plan : List PlanStep} {F : List String}
    (hT : TopoOrdered plan F) {l : List String} (hc : CycleChain plan l)
    (hsub : ∀ x ∈ l, x ∈ F) : False := by
  obtain ⟨hne, _, hch, hhl⟩ := hc
  have hh : l.head? = some (l.head hne) := List.head?_eq_head hne
  have hl : l.getLast? = some (l.getLast hne) := List.getLast?_eq_getLast l hne
  have h1 := chain_indexOf_le hT l (l.head hne) (l.getLast hne) hch hsub hh hl
  have h2 : l.head hne ∈ depList plan (l.getLast hne) := hhl _ _ hh hl
  have h3 : F.indexOf (l.head hne) < F.indexOf (l.getLast hne) :=
    indexOf_dep_lt hT (hsub _ (List.getLast_mem hne)) h2
  omega

theorem hasCycle_of_stalled {plan : List PlanStep} (hcl : PlanClosed plan)
    (F : List String)
    (hne : ∃ n ∈ planIds plan, n ∉ F)
    (hstall : ∀ n ∈ planIds plan, n ∉ F → ¬ AllDeps plan n F) :
    HasCycle plan := by
  classical
  obtain ⟨n₀, hn₀1, hn₀2⟩ := hne
  have hstep : ∀ n, (n ∈ planIds plan ∧ n ∉ F) →
      ∃ d, d ∈ depList plan n ∧ (d ∈ planIds plan ∧ d ∉ F) := by
    rintro n ⟨h1, h2⟩
    have h := hstall n h1 h2
    rw [AllDeps] at h
    push_neg at h
    obtain ⟨d, hd1, hd2⟩ := h
    exact ⟨d, hd1, depList_subset_of_closed hcl n d hd1, hd2⟩
  let f : String → String := fun n =>
    if h : n ∈ planIds plan ∧ n ∉ F then Classical.choose (hstep n h) else n
  have hf : ∀ n (h : n ∈ planIds plan ∧ n ∉ F),
      f n ∈ depList plan n ∧ (f n ∈ planIds plan ∧ f n ∉ F) := by
    intro n h
    have := Classical.choose_spec (hstep n h)
    simp only [f, dif_pos h]
    exact this
  let g : Nat → String := fun k => f^[k] n₀
  have hmis : ∀ k, g k ∈ planIds plan ∧ g k ∉ F := by
    intro k
    induction k with
    | zero => exact ⟨hn₀1, hn₀2⟩
    | succ m ihm =>
      have : g (m + 1) = f (g m) := Function.iterate_succ_apply' f m n₀
      rw [this]
      exact (hf (g m) ihm).2
  have hdep : ∀ k, g (k + 1) ∈ depList plan (g k) := by
    intro k
    have h1 : g (k + 1) = f (g k) := Function.iterate_succ_apply' f k n₀
    rw [h1]
    exact (hf (g k) (hmis k)).1
  set M := (planIds plan).filter (fun n => ¬ n ∈ F) with hM
  have hgM : ∀ k, g k ∈ M := by
    intro k
    rw [hM, List.mem_filter]
    exact ⟨(hmis k).1, by simpa using (hmis k).2⟩
  obtain ⟨i, hi, j, hj, hij, heqg⟩ :=
    Finset.exists_ne_map_eq_of_card_lt_of_maps_to
      (s := Finset.range (M.length + 1)) (t := M.toFinset) (f := g)
      (by
        rw [Finset.card_range]
        have := List.toFinset_card_le M
        omega)
      (fun x _ => List.mem_toFinset.2 (hgM x))
  have key : ∀ a b : Nat, a < b → g a = g b → HasCycle plan := by
    intro a b hlt heqab
    refine ⟨(List.range (b - a)).map (fun k => g (a + k)), ?_, ?_, ?_, ?_⟩
    · simp only [ne_eq, List.map_eq_nil_iff, List.range_eq_nil]
      omega
    · intro x hx
      simp only [List.mem_map] at hx
      obtain ⟨k, _, rfl⟩ := hx
      exact (hmis _).1
    · rw [List.chain'_map]
      have hn : b - a = (b - a - 1) + 1 := by omega
      rw [hn]
      refine (List.chain'_range_succ _ _).2 ?_
      intro m hm
      have h2 : a + (m + 1) = (a + m) + 1 := by omega
      rw [h2]
      exact hdep (a + m)
    · intro x y hx hy
      have hn : b - a = (b - a - 1) + 1 := by omega
      rw [hn] at hx hy
      rw [List.range_succ_eq_map] at hx
      simp at hx
      rw [List.range_succ] at hy
      simp at hy
      subst hx
      subst hy
      have h3 : a + (b - a - 1) + 1 = b := by omega
      have h4 := hdep (a + (b - a - 1))
      rw [h3] at h4
      rw [← heqab] at h4
      simpa using h4
  rcases Nat.lt_trichotomy i j with h | h | h
  · exact key i j h heqg
  · exact absurd h hij
  · exact key j i h heqg.symm



/-- C6: for every plan with unique step ids whose `depends_on` references
name steps of the plan and whose dependency graph is acyclic, `_execute_plan`
executes each step exactly once (the executed list is a permutation of the
step ids) and only after all of its dependencies; for a plan with a missing
reference or a dependency cycle, the frontier loop drains and the scheduler
raises the fatal `DAG cycle detected or missing dependencies` error. -/
theorem c6_dag_scheduler (plan : List PlanStep) (hnd : (planIds plan).Nodup) :
    (PlanClosed plan → ¬ HasCycle plan →
      ∃ out, execute_plan plan = .ok out ∧ out.Perm (planIds plan) ∧ TopoOrdered plan out) ∧
    ((¬ PlanClosed plan ∨ HasCycle plan) →
      execute_plan plan = .error "DAG cycle detected or missing dependencies") := by
  have hspec := dagLoop_spec plan hnd (plan.length + 1)
    { inDeg := initInDeg plan, executed := [] } (initReady plan)
    (by simp)
    (by simp)
    (by
      rw [initReady]
      exact hnd.filter _)
    (by
      intro x hx
      rw [initReady] at hx
      exact (List.mem_filter.1 hx).1)
    (by simp)
    (by
      intro x
      rw [show ({ inDeg := initInDeg plan, executed := [] } : DagState).inDeg = initInDeg plan
        from rfl, initInDeg]
      simp)
    (by
      intro x hx
      rw [initReady, List.mem_filter]
      simp only [hx, true_and]
      rw [AllDeps]
      constructor
      · intro h
        simp at h
        refine ⟨by simp, ?_⟩
        intro d hd
        rw [h] at hd
        cases hd
      · rintro ⟨_, h2⟩
        simp only [decide_eq_true_eq, List.length_eq_zero]
        rw [List.eq_nil_iff_forall_not_mem]
        intro d hd
        exact List.not_mem_nil d (h2 d hd))
    (by
      intro i h
      simp at h)
    (by
      rw [planIds, List.length_map]
      simp)
  obtain ⟨hFnd, hFsub, hFtopo, hFstall⟩ := hspec
  have hEP : execute_plan plan =
      if (dagLoop plan (plan.length + 1) { inDeg := initInDeg plan, executed := [] }
          (initReady plan)).length = plan.length
      then Except.ok (dagLoop plan (plan.length + 1)
          { inDeg := initInDeg plan, executed := [] } (initReady plan))
      else Except.error "DAG cycle detected or missing dependencies" := rfl
  set F := dagLoop plan (plan.length + 1) { inDeg := initInDeg plan, executed := [] }
    (initReady plan) with hF
  constructor
  · intro hcl hnc
    have hcover : ∀ n ∈ planIds plan, n ∈ F := by
      by_contra hc
      push_neg at hc
      refine hnc (hasCycle_of_stalled hcl F hc ?_)
      intro n hn hnot
      exact hFstall n hn hnot
    have hperm : F.Perm (planIds plan) :=
      (List.perm_ext_iff_of_nodup hFnd hnd).mpr
        (fun a => ⟨fun h => hFsub a h, fun h => hcover a h⟩)
    have hlen : F.length = plan.length := by
      rw [hperm.length_eq, planIds, List.length_map]
    refine ⟨F, ?_, hperm, hFtopo⟩
    rw [hEP, if_pos hlen]
  · intro hbad
    have hnlen : ¬ F.length = plan.length := by
      intro hlen
      have hperm : F.Perm (planIds plan) :=
        List.Subperm.perm_of_length_le
          (List.subperm_of_subset hFnd fun x hx => hFsub x hx)
          (by rw [hlen, planIds, List.length_map])
      have hcover : ∀ n ∈ planIds plan, n ∈ F := fun n hn => hperm.mem_iff.2 hn
      rcases hbad with hncl | hcyc
      · rw [PlanClosed] at hncl
        push_neg at hncl
        obtain ⟨s, hs, d, hd, hdnot⟩ := hncl
        have hsid : s.id ∈ planIds plan := List.mem_map.2 ⟨s, hs, rfl⟩
        have hdl : depList plan s.id = s.deps := depList_eq_of_mem hnd hs
        have hsF : s.id ∈ F := hcover _ hsid
        obtain ⟨⟨i, hi⟩, hget⟩ := List.mem_iff_get.1 hsF
        have hdF : d ∈ F := by
          have h1 := hFtopo i hi d (by rw [hget, hdl]; exact hd)
          exact List.take_subset _ _ h1
        exact hdnot (hFsub d hdF)
      · obtain ⟨l, hcc⟩ := hcyc
        exact no_cycle_executed hFtopo hcc (fun x hx => hcover x (hcc.2.1 x hx))
    rw [hEP, if_neg hnlen]


theorem c6_dag_scheduler_witness :
    execute_plan [⟨"a", ["a"]⟩] = .error "DAG cycle detected or missing dependencies" :=
  (c6_dag_scheduler [⟨"a", ["a"]⟩] (by decide)).2
    (Or.inr ⟨["a"], by decide, by decide, by simp, fun a b ha hb => by
      simp at ha hb
      subst ha
      subst hb
      decide⟩)

end Spec2Proof
